import Mathlib

/-!
Verification development for the transformation-synthesis pass in
`src/quicktype-core/MakeTransformations.ts`.

The pass rewrites a type graph: every type a target renderer cannot represent
is replaced by a carrier type plus an attached bidirectional `Transformation`
(a forward decoding transformer tree together with a structurally derived
reverse encoding tree).

Embedding conventions:
* `TypeRef`s are modelled structurally: the rewrite context's canonicalizing
  constructors deduplicate by structural identity, so a reference is the type
  value itself.  `builder.reconstituteType` (the engine's memoized carry-over,
  whose code is not in the source fragment) is modelled as the identity
  carry-over, per the collaborator contract in the spec (section 6).
* `TypeAttributes` are modelled as a list of opaque named attributes; the
  synthesized `Transformation` (attached via a dedicated attribute kind in the
  source) is carried as a separate field of each replacement result.
* Fallible code (`assert`, `panic`, `defined`) is modelled with
  `Except String`.
-/

/-- Type kinds occurring in this pass.  `integerStringK` and `dateTimeK` are
the transformed string kinds.  Modelled from the spec: `Type.ts` is not in the
source fragment; the spec describes transformed-string scalars as "primitive
kinds that are textual encodings of another primitive (e.g. integer-as-string)"
and the claims distinguish kinds with and without a defined target primitive
kind, so we model `integerStringK` (target `integer`) and `dateTimeK` (no
target primitive kind). -/
inductive TypeKind where
  | nullK
  | integerK
  | doubleK
  | boolK
  | stringK
  | arrayK
  | classK
  | mapK
  | enumK
  | unionK
  | anyK
  | integerStringK
  | dateTimeK
deriving DecidableEq, Repr, Fintype

/-- Modelled from the spec: `targetTypeKindForTransformedStringTypeKind` from
`Type.ts` is not in the source fragment.  Per the spec only integer-as-string
is a textual encoding of another primitive; `dateTimeK` has no target. -/
def targetTypeKindForTransformedStringTypeKind : TypeKind → Option TypeKind
  | .integerStringK => some .integerK
  | _ => none

/-- Modelled from the spec: `isPrimitiveStringTypeKind` from `Type.ts` is not
in the source fragment.  The spec (section 4.2) describes the kinds this
predicate guards as the transformed-string scalar kinds, i.e. the textual
encodings replaced by the string-scalar strategy. -/
def isPrimitiveStringTypeKind : TypeKind → Bool
  | .integerStringK => true
  | .dateTimeK => true
  | _ => false

/-- Structural model of graph types.  `class` and `map` members are opaque
black boxes, modelled as primitives of the corresponding kind. -/
inductive Ty where
  | prim (kind : TypeKind) (attrs : List String)
  | arr (attrs : List String) (items : Ty)
  | enum (attrs : List String) (cases : List String)
  | union (attrs : List String) (members : List Ty)

/-- Boolean structural equality for `Ty` (the derive handler does not support
this nested inductive). -/
def tyBeq : Ty → Ty → Bool
  | .prim k1 a1, .prim k2 a2 => k1 == k2 && a1 == a2
  | .arr a1 i1, .arr a2 i2 => a1 == a2 && tyBeq i1 i2
  | .enum a1 c1, .enum a2 c2 => a1 == a2 && c1 == c2
  | .union a1 m1, .union a2 m2 => a1 == a2 && tyListBeq m1 m2
  | _, _ => false
where tyListBeq : List Ty → List Ty → Bool
  | [], [] => true
  | x :: xs, y :: ys => tyBeq x y && tyListBeq xs ys
  | _, _ => false

def tyBeq_iff : (a b : Ty) → (tyBeq a b = true ↔ a = b)
  | .prim k1 a1, .prim k2 a2 => by simp [tyBeq]
  | .arr a1 i1, .arr a2 i2 => by
      simp only [tyBeq, Bool.and_eq_true, beq_iff_eq, Ty.arr.injEq]
      exact and_congr Iff.rfl (tyBeq_iff i1 i2)
  | .enum a1 c1, .enum a2 c2 => by simp [tyBeq]
  | .union a1 m1, .union a2 m2 => by
      simp only [tyBeq, Bool.and_eq_true, beq_iff_eq, Ty.union.injEq]
      exact and_congr Iff.rfl (tyListBeq_iff m1 m2)
  | .prim _ _, .arr _ _ | .prim _ _, .enum _ _ | .prim _ _, .union _ _
  | .arr _ _, .prim _ _ | .arr _ _, .enum _ _ | .arr _ _, .union _ _
  | .enum _ _, .prim _ _ | .enum _ _, .arr _ _ | .enum _ _, .union _ _
  | .union _ _, .prim _ _ | .union _ _, .arr _ _ | .union _ _, .enum _ _ => by
      simp [tyBeq]
where tyListBeq_iff : (l1 l2 : List Ty) → (tyBeq.tyListBeq l1 l2 = true ↔ l1 = l2)
  | [], [] => by simp [tyBeq.tyListBeq]
  | [], _ :: _ => by simp [tyBeq.tyListBeq]
  | _ :: _, [] => by simp [tyBeq.tyListBeq]
  | x :: xs, y :: ys => by
      simp only [tyBeq.tyListBeq, Bool.and_eq_true, List.cons.injEq]
      exact and_congr (tyBeq_iff x y) (tyListBeq_iff xs ys)

instance : DecidableEq Ty := fun a b => decidable_of_iff _ (tyBeq_iff a b)

/-- The kind tag of a type, as `t.kind` in the source. -/
def Ty.kind : Ty → TypeKind
  | .prim k _ => k
  | .arr _ _ => .arrayK
  | .enum _ _ => .enumK
  | .union _ _ => .unionK

/-- The attribute bag of a type, as `t.getAttributes()` in the source. -/
def Ty.attrsOf : Ty → List String
  | .prim _ a => a
  | .arr a _ => a
  | .enum a _ => a
  | .union a _ => a

/-- The canonical untyped "any" primitive (`builder.getPrimitiveType("any")`). -/
def anyTy : Ty := Ty.prim .anyK []

/-- The canonical unrestricted string type
(`builder.getStringType(emptyTypeAttributes, StringTypes.unrestricted)`). -/
def stringTy : Ty := Ty.prim .stringK []

/-- Modelled from the spec: `UnionType.stringTypeMembers` from `Type.ts` is
not in the source fragment.  Per the spec the string-like members of a union
are the plain string member, the enumeration member and the transformed-string
members. -/
def isStringLike (t : Ty) : Bool :=
  t.kind = .stringK || t.kind = .enumK || isPrimitiveStringTypeKind t.kind

/-- Transformer IR nodes.  Constructors follow the transformer classes used in
the source (`DecodingTransformer`, `ParseStringTransformer`,
`StringMatchTransformer`, `StringProducerTransformer`, `ChoiceTransformer`,
`UnionInstantiationTransformer`, `DecodingChoiceTransformer`,
`ArrayDecodingTransformer`).  `stringify` is the reverse-direction node:
modelled from the spec, which says `ParseString` reverses to "a
string-producing node that formats the scalar back to text (stringify)"
(`Transformers.ts` is not in the source fragment). -/
inductive Transformer where
  | decoding (source : Ty) (cont : Option Transformer)
  | parseString (source : Ty) (cont : Option Transformer)
  | stringify (source : Ty) (cont : Option Transformer)
  | stringMatch (source : Ty) (cont : Option Transformer) (lit : String)
  | stringProducer (source : Ty) (cont : Option Transformer) (lit : String)
  | choice (source : Ty) (alts : List Transformer)
  | unionInstantiation (memberRef : Ty)
  | decodingChoice (source : Ty) (nullT : Option Transformer)
      (integerT : Option Transformer) (doubleT : Option Transformer)
      (boolT : Option Transformer) (stringT : Option Transformer)
      (arrayT : Option Transformer) (objectT : Option Transformer)
  | arrayDecoding (source : Ty) (cont : Option Transformer)
      (resultItem : Ty) (itemTransformer : Transformer)

/-- Boolean structural equality for `Transformer`. -/
def trBeq : Transformer → Transformer → Bool
  | .decoding s1 k1, .decoding s2 k2 => s1 == s2 && trOptBeq k1 k2
  | .parseString s1 k1, .parseString s2 k2 => s1 == s2 && trOptBeq k1 k2
  | .stringify s1 k1, .stringify s2 k2 => s1 == s2 && trOptBeq k1 k2
  | .stringMatch s1 k1 l1, .stringMatch s2 k2 l2 =>
      s1 == s2 && trOptBeq k1 k2 && l1 == l2
  | .stringProducer s1 k1 l1, .stringProducer s2 k2 l2 =>
      s1 == s2 && trOptBeq k1 k2 && l1 == l2
  | .choice s1 a1, .choice s2 a2 => s1 == s2 && trListBeq a1 a2
  | .unionInstantiation m1, .unionInstantiation m2 => m1 == m2
  | .decodingChoice s1 n1 i1 d1 b1 t1 r1 o1, .decodingChoice s2 n2 i2 d2 b2 t2 r2 o2 =>
      s1 == s2 && trOptBeq n1 n2 && trOptBeq i1 i2 && trOptBeq d1 d2 &&
      trOptBeq b1 b2 && trOptBeq t1 t2 && trOptBeq r1 r2 && trOptBeq o1 o2
  | .arrayDecoding s1 k1 r1 i1, .arrayDecoding s2 k2 r2 i2 =>
      s1 == s2 && trOptBeq k1 k2 && r1 == r2 && trBeq i1 i2
  | _, _ => false
where
  trOptBeq : Option Transformer → Option Transformer → Bool
    | none, none => true
    | some a, some b => trBeq a b
    | _, _ => false
  trListBeq : List Transformer → List Transformer → Bool
    | [], [] => true
    | x :: xs, y :: ys => trBeq x y && trListBeq xs ys
    | _, _ => false

def trBeq_iff : (a b : Transformer) → (trBeq a b = true ↔ a = b)
  | .decoding s1 k1, .decoding s2 k2 => by
      simp only [trBeq, Bool.and_eq_true, beq_iff_eq, Transformer.decoding.injEq]
      rw [trOptBeq_iff k1 k2]
  | .parseString s1 k1, .parseString s2 k2 => by
      simp only [trBeq, Bool.and_eq_true, beq_iff_eq, Transformer.parseString.injEq]
      rw [trOptBeq_iff k1 k2]
  | .stringify s1 k1, .stringify s2 k2 => by
      simp only [trBeq, Bool.and_eq_true, beq_iff_eq, Transformer.stringify.injEq]
      rw [trOptBeq_iff k1 k2]
  | .stringMatch s1 k1 l1, .stringMatch s2 k2 l2 => by
      simp only [trBeq, Bool.and_eq_true, beq_iff_eq, Transformer.stringMatch.injEq]
      rw [trOptBeq_iff k1 k2]
      tauto
  | .stringProducer s1 k1 l1, .stringProducer s2 k2 l2 => by
      simp only [trBeq, Bool.and_eq_true, beq_iff_eq, Transformer.stringProducer.injEq]
      rw [trOptBeq_iff k1 k2]
      tauto
  | .choice s1 a1, .choice s2 a2 => by
      simp only [trBeq, Bool.and_eq_true, beq_iff_eq, Transformer.choice.injEq]
      rw [trListBeq_iff a1 a2]
  | .unionInstantiation m1, .unionInstantiation m2 => by simp [trBeq]
  | .decodingChoice s1 n1 i1 d1 b1 t1 r1 o1, .decodingChoice s2 n2 i2 d2 b2 t2 r2 o2 => by
      simp only [trBeq, Bool.and_eq_true, beq_iff_eq, Transformer.decodingChoice.injEq]
      rw [trOptBeq_iff n1 n2, trOptBeq_iff i1 i2, trOptBeq_iff d1 d2, trOptBeq_iff b1 b2,
        trOptBeq_iff t1 t2, trOptBeq_iff r1 r2, trOptBeq_iff o1 o2]
      tauto
  | .arrayDecoding s1 k1 r1 i1, .arrayDecoding s2 k2 r2 i2 => by
      simp only [trBeq, Bool.and_eq_true, beq_iff_eq, Transformer.arrayDecoding.injEq]
      rw [trOptBeq_iff k1 k2, trBeq_iff i1 i2]
      tauto
  | .decoding _ _, .parseString _ _
  | .decoding _ _, .stringify _ _
  | .decoding _ _, .stringMatch _ _ _
  | .decoding _ _, .stringProducer _ _ _
  | .decoding _ _, .choice _ _
  | .decoding _ _, .unionInstantiation _
  | .decoding _ _, .decodingChoice _ _ _ _ _ _ _ _
  | .decoding _ _, .arrayDecoding _ _ _ _
  | .parseString _ _, .decoding _ _
  | .parseString _ _, .stringify _ _
  | .parseString _ _, .stringMatch _ _ _
  | .parseString _ _, .stringProducer _ _ _
  | .parseString _ _, .choice _ _
  | .parseString _ _, .unionInstantiation _
  | .parseString _ _, .decodingChoice _ _ _ _ _ _ _ _
  | .parseString _ _, .arrayDecoding _ _ _ _
  | .stringify _ _, .decoding _ _
  | .stringify _ _, .parseString _ _
  | .stringify _ _, .stringMatch _ _ _
  | .stringify _ _, .stringProducer _ _ _
  | .stringify _ _, .choice _ _
  | .stringify _ _, .unionInstantiation _
  | .stringify _ _, .decodingChoice _ _ _ _ _ _ _ _
  | .stringify _ _, .arrayDecoding _ _ _ _
  | .stringMatch _ _ _, .decoding _ _
  | .stringMatch _ _ _, .parseString _ _
  | .stringMatch _ _ _, .stringify _ _
  | .stringMatch _ _ _, .stringProducer _ _ _
  | .stringMatch _ _ _, .choice _ _
  | .stringMatch _ _ _, .unionInstantiation _
  | .stringMatch _ _ _, .decodingChoice _ _ _ _ _ _ _ _
  | .stringMatch _ _ _, .arrayDecoding _ _ _ _
  | .stringProducer _ _ _, .decoding _ _
  | .stringProducer _ _ _, .parseString _ _
  | .stringProducer _ _ _, .stringify _ _
  | .stringProducer _ _ _, .stringMatch _ _ _
  | .stringProducer _ _ _, .choice _ _
  | .stringProducer _ _ _, .unionInstantiation _
  | .stringProducer _ _ _, .decodingChoice _ _ _ _ _ _ _ _
  | .stringProducer _ _ _, .arrayDecoding _ _ _ _
  | .choice _ _, .decoding _ _
  | .choice _ _, .parseString _ _
  | .choice _ _, .stringify _ _
  | .choice _ _, .stringMatch _ _ _
  | .choice _ _, .stringProducer _ _ _
  | .choice _ _, .unionInstantiation _
  | .choice _ _, .decodingChoice _ _ _ _ _ _ _ _
  | .choice _ _, .arrayDecoding _ _ _ _
  | .unionInstantiation _, .decoding _ _
  | .unionInstantiation _, .parseString _ _
  | .unionInstantiation _, .stringify _ _
  | .unionInstantiation _, .stringMatch _ _ _
  | .unionInstantiation _, .stringProducer _ _ _
  | .unionInstantiation _, .choice _ _
  | .unionInstantiation _, .decodingChoice _ _ _ _ _ _ _ _
  | .unionInstantiation _, .arrayDecoding _ _ _ _
  | .decodingChoice _ _ _ _ _ _ _ _, .decoding _ _
  | .decodingChoice _ _ _ _ _ _ _ _, .parseString _ _
  | .decodingChoice _ _ _ _ _ _ _ _, .stringify _ _
  | .decodingChoice _ _ _ _ _ _ _ _, .stringMatch _ _ _
  | .decodingChoice _ _ _ _ _ _ _ _, .stringProducer _ _ _
  | .decodingChoice _ _ _ _ _ _ _ _, .choice _ _
  | .decodingChoice _ _ _ _ _ _ _ _, .unionInstantiation _
  | .decodingChoice _ _ _ _ _ _ _ _, .arrayDecoding _ _ _ _
  | .arrayDecoding _ _ _ _, .decoding _ _
  | .arrayDecoding _ _ _ _, .parseString _ _
  | .arrayDecoding _ _ _ _, .stringify _ _
  | .arrayDecoding _ _ _ _, .stringMatch _ _ _
  | .arrayDecoding _ _ _ _, .stringProducer _ _ _
  | .arrayDecoding _ _ _ _, .choice _ _
  | .arrayDecoding _ _ _ _, .unionInstantiation _
  | .arrayDecoding _ _ _ _, .decodingChoice _ _ _ _ _ _ _ _ => by
      simp [trBeq]
where
  trOptBeq_iff : (k1 k2 : Option Transformer) → (trBeq.trOptBeq k1 k2 = true ↔ k1 = k2)
    | none, none => by simp [trBeq.trOptBeq]
    | none, some _ => by simp [trBeq.trOptBeq]
    | some _, none => by simp [trBeq.trOptBeq]
    | some a, some b => by
        simp only [trBeq.trOptBeq, Option.some.injEq]
        exact trBeq_iff a b
  trListBeq_iff : (l1 l2 : List Transformer) → (trBeq.trListBeq l1 l2 = true ↔ l1 = l2)
    | [], [] => by simp [trBeq.trListBeq]
    | [], _ :: _ => by simp [trBeq.trListBeq]
    | _ :: _, [] => by simp [trBeq.trListBeq]
    | x :: xs, y :: ys => by
        simp only [trBeq.trListBeq, Bool.and_eq_true, List.cons.injEq]
        exact and_congr (trBeq_iff x y) (trListBeq_iff xs ys)

instance : DecidableEq Transformer := fun a b => decidable_of_iff _ (trBeq_iff a b)

/-- A `Transformation` pairs the reconstituted target type with the forward
(decoding) transformer, as built by `transformationAttributes`. -/
structure Transformation where
  targetType : Ty
  forward : Transformer
deriving DecidableEq

/-- Runtime values, for the spec-modelled semantics of transformer trees (the
spec, section 3, describes what each node does to a value; no transformer is
executed inside this pass itself).  `vdouble` and `vobj` carry opaque tags:
double and object payloads are only ever passed through by the transformers
this pass builds.  `vtagged` is a value wrapped as a specific union member by
`UnionInstantiate`. -/
inductive Value where
  | vnull
  | vbool (b : Bool)
  | vint (n : Int)
  | vdouble (tag : Nat)
  | vstr (s : String)
  | varr (elems : List Value)
  | vobj (tag : Nat)
  | vtagged (member : Ty) (v : Value)

/-- Boolean structural equality for `Value`. -/
def valBeq : Value → Value → Bool
  | .vnull, .vnull => true
  | .vbool b1, .vbool b2 => b1 == b2
  | .vint n1, .vint n2 => n1 == n2
  | .vdouble t1, .vdouble t2 => t1 == t2
  | .vstr s1, .vstr s2 => s1 == s2
  | .varr l1, .varr l2 => valListBeq l1 l2
  | .vobj t1, .vobj t2 => t1 == t2
  | .vtagged m1 v1, .vtagged m2 v2 => m1 == m2 && valBeq v1 v2
  | _, _ => false
where valListBeq : List Value → List Value → Bool
  | [], [] => true
  | x :: xs, y :: ys => valBeq x y && valListBeq xs ys
  | _, _ => false

def valBeq_iff : (a b : Value) → (valBeq a b = true ↔ a = b)
  | .vnull, .vnull => by simp [valBeq]
  | .vbool _, .vbool _ => by simp [valBeq]
  | .vint _, .vint _ => by simp [valBeq]
  | .vdouble _, .vdouble _ => by simp [valBeq]
  | .vstr _, .vstr _ => by simp [valBeq]
  | .vobj _, .vobj _ => by simp [valBeq]
  | .varr l1, .varr l2 => by
      simp only [valBeq, Value.varr.injEq]
      exact valListBeq_iff l1 l2
  | .vtagged m1 v1, .vtagged m2 v2 => by
      simp only [valBeq, Bool.and_eq_true, beq_iff_eq, Value.vtagged.injEq]
      rw [valBeq_iff v1 v2]
  | .vnull, .vbool _
  | .vnull, .vint _
  | .vnull, .vdouble _
  | .vnull, .vstr _
  | .vnull, .varr _
  | .vnull, .vobj _
  | .vnull, .vtagged _ _
  | .vbool _, .vnull
  | .vbool _, .vint _
  | .vbool _, .vdouble _
  | .vbool _, .vstr _
  | .vbool _, .varr _
  | .vbool _, .vobj _
  | .vbool _, .vtagged _ _
  | .vint _, .vnull
  | .vint _, .vbool _
  | .vint _, .vdouble _
  | .vint _, .vstr _
  | .vint _, .varr _
  | .vint _, .vobj _
  | .vint _, .vtagged _ _
  | .vdouble _, .vnull
  | .vdouble _, .vbool _
  | .vdouble _, .vint _
  | .vdouble _, .vstr _
  | .vdouble _, .varr _
  | .vdouble _, .vobj _
  | .vdouble _, .vtagged _ _
  | .vstr _, .vnull
  | .vstr _, .vbool _
  | .vstr _, .vint _
  | .vstr _, .vdouble _
  | .vstr _, .varr _
  | .vstr _, .vobj _
  | .vstr _, .vtagged _ _
  | .varr _, .vnull
  | .varr _, .vbool _
  | .varr _, .vint _
  | .varr _, .vdouble _
  | .varr _, .vstr _
  | .varr _, .vobj _
  | .varr _, .vtagged _ _
  | .vobj _, .vnull
  | .vobj _, .vbool _
  | .vobj _, .vint _
  | .vobj _, .vdouble _
  | .vobj _, .vstr _
  | .vobj _, .varr _
  | .vobj _, .vtagged _ _
  | .vtagged _ _, .vnull
  | .vtagged _ _, .vbool _
  | .vtagged _ _, .vint _
  | .vtagged _ _, .vdouble _
  | .vtagged _ _, .vstr _
  | .vtagged _ _, .varr _
  | .vtagged _ _, .vobj _ => by
      simp [valBeq]
where
  valListBeq_iff : (l1 l2 : List Value) → (valBeq.valListBeq l1 l2 = true ↔ l1 = l2)
    | [], [] => by simp [valBeq.valListBeq]
    | [], _ :: _ => by simp [valBeq.valListBeq]
    | _ :: _, [] => by simp [valBeq.valListBeq]
    | x :: xs, y :: ys => by
        simp only [valBeq.valListBeq, Bool.and_eq_true, List.cons.injEq]
        exact and_congr (valBeq_iff x y) (valListBeq_iff xs ys)

instance : DecidableEq Value := fun a b => decidable_of_iff _ (valBeq_iff a b)

/-- Keep the first occurrence of each element, in order: the JS `new Set(
values)` used for `reconstitutedMemberSet` preserves insertion order. -/
def dedupFirstAux {α : Type} [DecidableEq α] : List α → List α → List α
  | [], acc => acc
  | x :: xs, acc => dedupFirstAux xs (if x ∈ acc then acc else acc ++ [x])

/-- Order-preserving deduplication (model of a JS `Set` built from a list). -/
def dedupFirst {α : Type} [DecidableEq α] (l : List α) : List α := dedupFirstAux l []

/-- Lexicographic comparison of character lists by code point, the order JS
`Array.sort()` applies to strings. -/
def lexLeChars : List Char → List Char → Bool
  | [], _ => true
  | _ :: _, [] => false
  | c1 :: r1, c2 :: r2 =>
      if c1.toNat < c2.toNat then true
      else if c2.toNat < c1.toNat then false
      else lexLeChars r1 r2

/-- Lexicographic order on strings (JS default string sort order). -/
def strLe (a b : String) : Bool := lexLeChars a.data b.data

/-- Insert a string into a sorted list of strings. -/
def insertCase (c : String) : List String → List String
  | [] => [c]
  | x :: xs => if strLe c x then c :: x :: xs else x :: insertCase c xs

/-- Insertion sort by `strLe`, the model of `Array.from(enumType.cases).sort()`. -/
def sortCases : List String → List String
  | [] => []
  | c :: cs => insertCase c (sortCases cs)

/-- Source `makeEnumTransformer` (MakeTransformations.ts:50-67): sort the enum
cases lexicographically, and build one `StringMatch(case) -> StringProduce(case)
-> continuation` alternative per case under a single `Choice` over the string
carrier. -/
def makeEnumTransformer (cases : List String) (stringType : Ty)
    (continuation : Option Transformer) : Transformer :=
  let sortedCases := sortCases cases
  Transformer.choice stringType (sortedCases.map (fun c =>
    Transformer.stringMatch stringType
      (some (Transformer.stringProducer stringType continuation c)) c))

/-- Source `reconstituteMember` (MakeTransformations.ts:82-98): a
transformed-string member with a defined target kind is redirected to the
reconstitution of an existing member of the target kind, or to a fresh
primitive of the target kind; every other member is reconstituted unchanged. -/
def reconMember (ms : List Ty) (t : Ty) : Ty :=
  if isPrimitiveStringTypeKind t.kind then
    match targetTypeKindForTransformedStringTypeKind t.kind with
    | some targetTypeKind =>
        match ms.find? (fun m => m.kind = targetTypeKind) with
        | some targetTypeMember => targetTypeMember
        | none => Ty.prim targetTypeKind []
    | none => t
  else t

/-- The attributes accumulated into `additionalAttributes` by
`reconstituteMember`: the original attributes of every redirected
transformed-string member, in member order. -/
def additionalAttrs (ms : List Ty) : List String :=
  ms.foldl (fun acc t =>
    if isPrimitiveStringTypeKind t.kind &&
        (targetTypeKindForTransformedStringTypeKind t.kind).isSome then
      acc ++ t.attrsOf
    else acc) []

/-- Source `reconstitutedMembersByKind` (MakeTransformations.ts:100). -/
def reconByKind (ms : List Ty) : List (TypeKind × Ty) :=
  ms.map (fun m => (m.kind, reconMember ms m))

/-- The reconstituted member references, in member order. -/
def memberRefs (ms : List Ty) : List Ty := ms.map (reconMember ms)

/-- Source `haveUnion` (MakeTransformations.ts:102): more than one distinct
reconstituted member remains after deduplication. -/
def haveUnionOf (ms : List Ty) : Bool := decide (1 < (dedupFirst (memberRefs ms)).length)

/-- Source `consumer` (MakeTransformations.ts:116-119). -/
def consumerFor (haveUnion : Bool) (memberTypeRef : Ty) : Option Transformer :=
  if haveUnion then some (Transformer.unionInstantiation memberTypeRef) else none

/-- Source `memberForKind` (MakeTransformations.ts:112-114), with the `defined`
panic modelled as `none` (never reached: the map has an entry for every member
kind). -/
def memberForKind (ms : List Ty) (kind : TypeKind) : Option Ty :=
  ((reconByKind ms).find? (fun p => p.1 = kind)).map (fun p => p.2)

/-- Source `transformerForKind` (MakeTransformations.ts:121-126). -/
def transformerForKind (ms : List Ty) (haveUnion : Bool) (kind : TypeKind) :
    Option Transformer :=
  match ms.find? (fun m => m.kind = kind) with
  | none => none
  | some _ =>
      match memberForKind ms kind with
      | none => none
      | some memberTypeRef =>
          some (Transformer.decoding memberTypeRef (consumerFor haveUnion memberTypeRef))

/-- Source `transformerForStringType` (MakeTransformations.ts:136-145). -/
def transformerForStringType (ms : List Ty) (haveUnion : Bool) (t : Ty) :
    Option Transformer :=
  match memberForKind ms t.kind with
  | none => none
  | some memberRef =>
      if t.kind = .stringK then consumerFor haveUnion memberRef
      else
        match t with
        | .enum _ cases => some (makeEnumTransformer cases stringTy (consumerFor haveUnion memberRef))
        | _ => some (Transformer.parseString stringTy (consumerFor haveUnion memberRef))

/-- Source `union.stringTypeMembers` (MakeTransformations.ts:147): the
string-like members, in member order. -/
def stringTypeMembers (ms : List Ty) : List Ty := ms.filter isStringLike

/-- The `defined(...)` helper from the source support library: panics (here:
errors) on `undefined`. -/
def definedAll : List (Option Transformer) → Except String (List Transformer)
  | [] => .ok []
  | none :: _ => .error "defined: value is undefined"
  | some t :: rest => (definedAll rest).map (fun l => t :: l)

/-- Source `transformerForString` (MakeTransformations.ts:148-164): absent for
zero string-like members, the member's own kind transformer for exactly one,
and a shared string-typed `Decode` into a `Choice` over each member's
transformer for more than one. -/
def transformerForString (ms : List Ty) (haveUnion : Bool) :
    Except String (Option Transformer) :=
  match stringTypeMembers ms with
  | [] => .ok none
  | [t] => .ok (transformerForKind ms haveUnion t.kind)
  | sts => (definedAll (sts.map (transformerForStringType ms haveUnion))).map
      (fun alts => some (Transformer.decoding stringTy
        (some (Transformer.choice stringTy alts))))

/-- Result of one replacement strategy: the replacement (carrier) type, the
attached `Transformation`, and whether `builder.setLostTypeAttributes()` was
signaled.  The source attaches the Transformation to the replacement type
through a dedicated attribute kind; here it is a separate field. -/
structure ReplacementOut where
  result : Ty
  transformation : Transformation
  lostTypeAttributes : Bool
deriving DecidableEq

/-- Source `replaceUnion` (MakeTransformations.ts:69-191). -/
def replaceUnion (attrs : List String) (ms : List Ty) : Except String ReplacementOut :=
  if ms.length = 0 then .error "We cannot have empty unions"
  else
    let reconstitutedMemberSet := dedupFirst (memberRefs ms)
    let haveUnion := decide (1 < reconstitutedMemberSet.length)
    match reconstitutedMemberSet with
    | [] => .error "defined: value is undefined"
    | m0 :: rest =>
      let reconstitutedTargetType :=
        if haveUnion then Ty.union attrs (m0 :: rest) else m0
      match transformerForString ms haveUnion with
      | .error e => .error e
      | .ok tString =>
          let tClass := transformerForKind ms haveUnion .classK
          let tMap := transformerForKind ms haveUnion .mapK
          if tClass.isSome && tMap.isSome then
            .error "Cannot have both class and map in a transformed union"
          else
            let tObject := if tClass.isSome then tClass else tMap
            let transformer := Transformer.decodingChoice anyTy
              (transformerForKind ms haveUnion .nullK)
              (transformerForKind ms haveUnion .integerK)
              (transformerForKind ms haveUnion .doubleK)
              (transformerForKind ms haveUnion .boolK)
              tString
              (transformerForKind ms haveUnion .arrayK)
              tObject
            .ok { result := Ty.prim .anyK (additionalAttrs ms),
                  transformation :=
                    { targetType := reconstitutedTargetType, forward := transformer },
                  lostTypeAttributes := !haveUnion }

/-- Source `replaceArray` (MakeTransformations.ts:193-223). -/
def replaceArray (attrs : List String) (items : Ty) : ReplacementOut :=
  let anyArrayType := Ty.arr [] anyTy
  let reconstitutedItems := items
  let transformer := Transformer.arrayDecoding anyArrayType none reconstitutedItems
    (Transformer.decoding anyTy none)
  let reconstitutedArray := Ty.arr attrs reconstitutedItems
  { result := Ty.arr [] anyTy,
    transformation := { targetType := reconstitutedArray, forward := transformer },
    lostTypeAttributes := false }

/-- Source `replaceEnum` (MakeTransformations.ts:225-245). -/
def replaceEnum (attrs : List String) (cases : List String) : ReplacementOut :=
  let transformer := Transformer.decoding stringTy
    (some (makeEnumTransformer cases stringTy none))
  { result := Ty.prim .stringK [],
    transformation := { targetType := Ty.enum attrs cases, forward := transformer },
    lostTypeAttributes := false }

/-- Source `replaceIntegerString` (MakeTransformations.ts:247-266): the target
primitive kind is hard-coded to `integer` in the source. -/
def replaceIntegerString (t : Ty) : ReplacementOut :=
  let transformer := Transformer.decoding stringTy
    (some (Transformer.parseString stringTy none))
  { result := Ty.prim .stringK [],
    transformation := { targetType := Ty.prim .integerK t.attrsOf, forward := transformer },
    lostTypeAttributes := false }

/-- Source `replace` (MakeTransformations.ts:269-288): the per-group
dispatcher of `makeTransformations`. -/
def replace (t : Ty) : Except String ReplacementOut :=
  match t with
  | .union a ms => replaceUnion a ms
  | .arr a items => .ok (replaceArray a items)
  | .enum a cases => .ok (replaceEnum a cases)
  | t =>
      if isPrimitiveStringTypeKind t.kind then .ok (replaceIntegerString t)
      else .error "Cannot make transformation for type"

/-- Canonical integer parsing, for the spec-modelled semantics of
`ParseString`/stringify.  Modelled from the spec: the parsing executed by
generated code is outside this pass; the spec requires decode/encode to be
mutual inverses, so parsing accepts exactly the canonical decimal renderings
(`parseIntCanon s = some n` iff `toString n = s`). -/
def parseIntCanon (s : String) : Option Int :=
  match parseIntRaw s with
  | some n => if toString n = s then some n else none
  | none => none
where
  digitVal (c : Char) : Option Nat :=
    if 48 ≤ c.toNat && c.toNat ≤ 57 then some (c.toNat - 48) else none
  natOfDigits : List Char → Nat → Option Nat
    | [], acc => some acc
    | c :: cs, acc =>
        match digitVal c with
        | some d => natOfDigits cs (acc * 10 + d)
        | none => none
  parseIntRaw (s : String) : Option Int :=
    match s.data with
    | [] => none
    | '-' :: [] => none
    | '-' :: r :: rest => (natOfDigits (r :: rest) 0).map (fun n => -(n : Int))
    | l => (natOfDigits l 0).map (fun n => (n : Int))

/-- Structural reversal of a transformer tree.  Modelled from the spec
(section 4.1): `Transformers.ts` is not in the source fragment.  Each node
maps to its dual (`Decode` to `Decode`, `ParseString` to stringify,
`StringMatch` to `StringProduce` and vice versa, `Choice` to `Choice` over the
reversed alternatives in the same order, `UnionInstantiate(m)` to `Decode(m)`
which unwraps and checks the member tag, `ArrayDecode` to `ArrayDecode` with
the item transformer reversed).  An instruction chain `A -> B` reverses to
`reverse(B) -> reverse(A)` — the accumulator `acc` is the already-reversed
outer context — which is what makes "emit literal" reverse into "accept only
literal" at the right position.  `DecodingChoice` reverses to a `Choice`
trying each reversed per-kind branch in branch order; per the spec, encoding
dispatches on the member tag carried at runtime, which the member-checking
`Decode` heads of the reversed branches implement. -/
def revT : Transformer → Option Transformer → Transformer
  | .decoding s k, acc => revChain k (.decoding s acc)
  | .parseString s k, acc => revChain k (.stringify s acc)
  | .stringify s k, acc => revChain k (.parseString s acc)
  | .stringMatch s k lit, acc => revChain k (.stringProducer s acc lit)
  | .stringProducer s k lit, acc => revChain k (.stringMatch s acc lit)
  | .choice s alts, acc => .choice s (revAlts alts acc)
  | .unionInstantiation m, acc => .decoding m acc
  | .decodingChoice s n i d b st a o, acc =>
      .choice s (revOpt n acc ++ (revOpt i acc ++ (revOpt d acc ++ (revOpt b acc ++
        (revOpt st acc ++ (revOpt a acc ++ revOpt o acc))))))
  | .arrayDecoding s k ri it, acc =>
      revChain k (.arrayDecoding s acc ri (revT it none))
where
  revChain : Option Transformer → Transformer → Transformer
    | none, r => r
    | some t, r => revT t (some r)
  revAlts : List Transformer → Option Transformer → List Transformer
    | [], _ => []
    | a :: rest, acc => revT a acc :: revAlts rest acc
  revOpt : Option Transformer → Option Transformer → List Transformer
    | none, _ => []
    | some t, acc => [revT t acc]

/-- The derived reverse (encoding) transformer of a Transformation, computed
by structural inversion of the forward tree. -/
def Transformation.reverse (tr : Transformation) : Transformer := revT tr.forward none

mutual

/-- Spec-modelled semantics of transformer trees on runtime values (spec,
section 3).  This pass never executes transformers; these semantics are those
the spec ascribes to the generated code, used to settle the invertibility
claim.  `Decode` passes a value through (on a tagged value it unwraps after
checking the member tag — the reverse of `UnionInstantiate`); `ParseString`
parses canonically; stringify renders; `StringMatch` accepts only its literal;
`StringProduce` emits its literal; `Choice` takes the first succeeding
alternative; `DecodingChoice` dispatches on the runtime kind of an untyped
value; `ArrayDecode` maps the item transformer over an array. -/
def eval : Transformer → Value → Option Value
  | .decoding s k, v =>
      match v with
      | .vtagged m w => if m = s then evalChain k w else none
      | _ => evalChain k v
  | .parseString _ k, v =>
      match v with
      | .vstr str =>
          match parseIntCanon str with
          | some n => evalChain k (.vint n)
          | none => none
      | _ => none
  | .stringify _ k, v =>
      match v with
      | .vint n => evalChain k (.vstr (toString n))
      | _ => none
  | .stringMatch _ k lit, v =>
      match v with
      | .vstr s => if s = lit then evalChain k (.vstr s) else none
      | _ => none
  | .stringProducer _ k lit, _ => evalChain k (.vstr lit)
  | .choice _ alts, v => evalAlts alts v
  | .unionInstantiation m, v => some (.vtagged m v)
  | .decodingChoice _ n i d b st a o, v =>
      match v with
      | .vnull => evalBranch n v
      | .vint _ => evalBranch i v
      | .vdouble _ => evalBranch d v
      | .vbool _ => evalBranch b v
      | .vstr _ => evalBranch st v
      | .varr _ => evalBranch a v
      | .vobj _ => evalBranch o v
      | .vtagged _ _ => none
  | .arrayDecoding _ k _ it, v =>
      match v with
      | .varr xs =>
          match evalItems it xs with
          | some ys => evalChain k (.varr ys)
          | none => none
      | _ => none
termination_by t _ => (sizeOf t, 0)

/-- Run an optional continuation; an absent continuation is the identity. -/
def evalChain : Option Transformer → Value → Option Value
  | none, v => some v
  | some t, v => eval t v
termination_by k _ => (sizeOf k, 0)

/-- Run an optional `DecodingChoice` branch; an absent branch is a decode
failure. -/
def evalBranch : Option Transformer → Value → Option Value
  | none, _ => none
  | some t, v => eval t v
termination_by k _ => (sizeOf k, 0)

/-- First succeeding alternative of a `Choice`. -/
def evalAlts : List Transformer → Value → Option Value
  | [], _ => none
  | a :: rest, v =>
      match eval a v with
      | some r => some r
      | none => evalAlts rest v
termination_by l _ => (sizeOf l, 0)

/-- Map an item transformer over array elements, failing if any element
fails. -/
def evalItems : Transformer → List Value → Option (List Value)
  | _, [] => some []
  | it, x :: xs =>
      match eval it x with
      | some y =>
          match evalItems it xs with
          | some ys => some (y :: ys)
          | none => none
      | none => none
termination_by it l => (sizeOf it, 1 + l.length)

end

/-- The forward transformer synthesized by `replaceUnion`, or a trivial
decoder when the strategy aborts (used to state claims about successful
synthesis). -/
def unionFwd (attrs : List String) (ms : List Ty) : Transformer :=
  match replaceUnion attrs ms with
  | .ok o => o.transformation.forward
  | .error _ => Transformer.decoding anyTy none

/-- Whether a `UnionInstantiationTransformer` occurs anywhere in a transformer
tree. -/
def containsUI : Transformer → Bool
  | .decoding _ k => containsUIOpt k
  | .parseString _ k => containsUIOpt k
  | .stringify _ k => containsUIOpt k
  | .stringMatch _ k _ => containsUIOpt k
  | .stringProducer _ k _ => containsUIOpt k
  | .choice _ alts => containsUIList alts
  | .unionInstantiation _ => true
  | .decodingChoice _ n i d b st a o =>
      containsUIOpt n || containsUIOpt i || containsUIOpt d || containsUIOpt b ||
      containsUIOpt st || containsUIOpt a || containsUIOpt o
  | .arrayDecoding _ k _ it => containsUIOpt k || containsUI it
where
  containsUIOpt : Option Transformer → Bool
    | none => false
    | some t => containsUI t
  containsUIList : List Transformer → Bool
    | [] => false
    | t :: rest => containsUI t || containsUIList rest

/-- Raw (wire-shaped) values: values of the original type's shape, containing
no union-member tag anywhere. -/
def rawVal : Value → Bool
  | .vnull => true
  | .vbool _ => true
  | .vint _ => true
  | .vdouble _ => true
  | .vstr _ => true
  | .varr xs => rawValList xs
  | .vobj _ => true
  | .vtagged _ _ => false
where rawValList : List Value → Bool
  | [] => true
  | x :: xs => rawVal x && rawValList xs

/-- The invertibility property of a forward transformer: on every raw value it
accepts, decoding and then encoding through the structurally reversed tree
reconstructs the input. -/
def RoundTrip (tr : Transformer) : Prop :=
  ∀ x y, rawVal x = true → eval tr x = some y → eval (revT tr none) y = some x

/-- The target kind of a transformed-string kind, or the kind itself. -/
def targetOrSelf (k : TypeKind) : TypeKind :=
  match targetTypeKindForTransformedStringTypeKind k with
  | some tk => tk
  | none => k

/-- Kinds the union strategy has a `DecodingChoice` branch for (every kind
except nested unions and `any`). -/
def handledKind : TypeKind → Bool
  | .unionK => false
  | .anyK => false
  | _ => true

/-- No transformed-string member of the union is redirected onto a kind that
is also present as its own member (e.g. no `integer` member next to an
`integer-string` member). -/
def NoAliasing (ms : List Ty) : Prop :=
  ∀ t ∈ ms, ∀ tk, targetTypeKindForTransformedStringTypeKind t.kind = some tk →
    ms.find? (fun m => m.kind = tk) = none

/-- The string branch of a synthesized `DecodingChoice`. -/
def stringBranch : Transformer → Option Transformer
  | .decodingChoice _ _ _ _ _ st _ _ => st
  | _ => none

/-- The seven per-kind branches of a synthesized `DecodingChoice`, in branch
order (null, integer, double, bool, string, array, object). -/
def dcBranchList : Transformer → List (Option Transformer)
  | .decodingChoice _ n i d b st a o => [n, i, d, b, st, a, o]
  | _ => []

/-- The alternative contributed by one string-like union member to the
combined string-branch `Choice` (total version of `transformerForStringType`
at the union's actual `haveUnion` flag). -/
def stringAltFor (ms : List Ty) (t : Ty) : Transformer :=
  match transformerForStringType ms (haveUnionOf ms) t with
  | some tr => tr
  | none => Transformer.decoding anyTy none

/-- The successful output of `replaceUnion`, with a trivial default in the
abort case (used to state witnesses without repeating the record literal). -/
def unionOutOrDefault (attrs : List String) (ms : List Ty) : ReplacementOut :=
  match replaceUnion attrs ms with
  | .ok o => o
  | .error _ =>
      { result := anyTy,
        transformation := { targetType := anyTy, forward := Transformer.decoding anyTy none },
        lostTypeAttributes := false }

instance {e a : Type} [DecidableEq e] [DecidableEq a] : DecidableEq (Except e a) :=
  fun x y =>
    match x, y with
    | .error e1, .error e2 => decidable_of_iff (e1 = e2) (by simp)
    | .ok v1, .ok v2 => decidable_of_iff (v1 = v2) (by simp)
    | .error _, .ok _ => isFalse (by simp)
    | .ok _, .error _ => isFalse (by simp)

theorem kind_of_find {ms : List Ty} {k : TypeKind} {m : Ty}
    (h : ms.find? (fun m => m.kind = k) = some m) : m.kind = k := by
  have := List.find?_some h
  simpa using this

theorem mem_of_find {ms : List Ty} {k : TypeKind} {m : Ty}
    (h : ms.find? (fun m => m.kind = k) = some m) : m ∈ ms :=
  List.mem_of_find?_eq_some h

theorem mem_dedupFirstAux {α : Type} [DecidableEq α] (l : List α) (acc : List α) (y : α) :
    y ∈ dedupFirstAux l acc ↔ y ∈ acc ∨ y ∈ l := by
  induction l generalizing acc with
  | nil => simp [dedupFirstAux]
  | cons x xs ih =>
      rw [dedupFirstAux, ih]
      by_cases hx : x ∈ acc
      · simp only [if_pos hx, List.mem_cons]
        aesop
      · simp only [if_neg hx, List.mem_append, List.mem_singleton, List.mem_cons]
        aesop

theorem mem_dedupFirst {α : Type} [DecidableEq α] (l : List α) (y : α) :
    y ∈ dedupFirst l ↔ y ∈ l := by
  rw [dedupFirst, mem_dedupFirstAux]
  simp

theorem nodup_dedupFirstAux {α : Type} [DecidableEq α] (l : List α) (acc : List α)
    (h : acc.Nodup) : (dedupFirstAux l acc).Nodup := by
  induction l generalizing acc with
  | nil => simpa [dedupFirstAux]
  | cons x xs ih =>
      rw [dedupFirstAux]
      by_cases hx : x ∈ acc
      · rw [if_pos hx]; exact ih acc h
      · rw [if_neg hx]
        exact ih _ (by simp [List.nodup_append, h, hx])

theorem nodup_dedupFirst {α : Type} [DecidableEq α] (l : List α) : (dedupFirst l).Nodup :=
  nodup_dedupFirstAux l [] (by simp)

theorem one_lt_length_of_mem_ne {α : Type} {l : List α} {a b : α}
    (ha : a ∈ l) (hb : b ∈ l) (hne : a ≠ b) : 1 < l.length := by
  cases l with
  | nil => simp at ha
  | cons x xs =>
      cases xs with
      | nil =>
          simp only [List.mem_singleton] at ha hb
          exact absurd (ha.trans hb.symm) hne
      | cons y ys =>
          simp only [List.length_cons]
          omega

theorem kind_reconMember (ms : List Ty) (t : Ty) :
    (reconMember ms t).kind = targetOrSelf t.kind := by
  cases hk : t.kind
  case integerStringK =>
      cases hf : ms.find? (fun m => m.kind = TypeKind.integerK) with
      | none =>
          simp only [reconMember, targetOrSelf, isPrimitiveStringTypeKind,
            targetTypeKindForTransformedStringTypeKind, hk, hf, if_true]
          rfl
      | some m =>
          simp only [reconMember, targetOrSelf, isPrimitiveStringTypeKind,
            targetTypeKindForTransformedStringTypeKind, hk, hf, if_true]
          exact kind_of_find hf
  all_goals
    simp only [reconMember, targetOrSelf, isPrimitiveStringTypeKind,
      targetTypeKindForTransformedStringTypeKind, hk, if_true, if_false,
      Bool.false_eq_true, ite_false, ite_true]

theorem targetOrSelf_inj_stringLike :
    ∀ k1 k2 : TypeKind,
      (k1 = .stringK ∨ k1 = .enumK ∨ isPrimitiveStringTypeKind k1 = true) →
      (k2 = .stringK ∨ k2 = .enumK ∨ isPrimitiveStringTypeKind k2 = true) →
      k1 ≠ k2 → targetOrSelf k1 ≠ targetOrSelf k2 := by
  intro k1 k2
  revert k1 k2
  decide

theorem isStringLike_iff (t : Ty) :
    isStringLike t = true ↔
      (t.kind = .stringK ∨ t.kind = .enumK ∨ isPrimitiveStringTypeKind t.kind = true) := by
  simp [isStringLike, or_assoc]

theorem mem_of_mem_stringTypeMembers {ms : List Ty} {t : Ty}
    (h : t ∈ stringTypeMembers ms) : t ∈ ms :=
  List.mem_of_mem_filter h

theorem stringLike_of_mem_stringTypeMembers {ms : List Ty} {t : Ty}
    (h : t ∈ stringTypeMembers ms) : isStringLike t = true :=
  List.of_mem_filter h

theorem kind_inj_of_nodup {ms : List Ty} (hnd : (ms.map Ty.kind).Nodup)
    {t1 t2 : Ty} (h1 : t1 ∈ ms) (h2 : t2 ∈ ms) (hk : t1.kind = t2.kind) : t1 = t2 :=
  List.inj_on_of_nodup_map hnd h1 h2 hk

theorem haveUnion_of_two_stringlike {ms : List Ty}
    (hnd : (ms.map Ty.kind).Nodup) {t1 t2 : Ty}
    (h1 : t1 ∈ stringTypeMembers ms) (h2 : t2 ∈ stringTypeMembers ms)
    (hne : t1 ≠ t2) : haveUnionOf ms = true := by
  have hm1 := mem_of_mem_stringTypeMembers h1
  have hm2 := mem_of_mem_stringTypeMembers h2
  have hkne : t1.kind ≠ t2.kind := fun hk => hne (kind_inj_of_nodup hnd hm1 hm2 hk)
  have hs1 := (isStringLike_iff t1).mp (stringLike_of_mem_stringTypeMembers h1)
  have hs2 := (isStringLike_iff t2).mp (stringLike_of_mem_stringTypeMembers h2)
  have hrne : reconMember ms t1 ≠ reconMember ms t2 := by
    intro he
    have : (reconMember ms t1).kind = (reconMember ms t2).kind := by rw [he]
    rw [kind_reconMember, kind_reconMember] at this
    exact targetOrSelf_inj_stringLike t1.kind t2.kind hs1 hs2 hkne this
  have hr1 : reconMember ms t1 ∈ dedupFirst (memberRefs ms) := by
    rw [mem_dedupFirst]
    exact List.mem_map_of_mem (reconMember ms) hm1
  have hr2 : reconMember ms t2 ∈ dedupFirst (memberRefs ms) := by
    rw [mem_dedupFirst]
    exact List.mem_map_of_mem (reconMember ms) hm2
  have := one_lt_length_of_mem_ne hr1 hr2 hrne
  simpa [haveUnionOf]

theorem find?_kind_self {ms : List Ty} {t : Ty}
    (hnd : (ms.map Ty.kind).Nodup) (ht : t ∈ ms) :
    ms.find? (fun m => m.kind = t.kind) = some t := by
  induction ms with
  | nil => simp at ht
  | cons x xs ih =>
      by_cases hx : x.kind = t.kind
      · have : x = t := by
          rcases List.mem_cons.mp ht with h | h
          · exact h.symm
          · exact kind_inj_of_nodup hnd (by simp) (by simp [h]) hx
        simp [List.find?, hx, this]
      · have ht' : t ∈ xs := by
          rcases List.mem_cons.mp ht with h | h
          · exact absurd (by rw [h]) hx
          · exact h
        have hnd' : (xs.map Ty.kind).Nodup := by
          simpa using (List.nodup_cons.mp (by simpa using hnd)).2
        have := ih hnd' ht'
        simp [List.find?, decide_eq_false hx, this]

theorem memberForKind_eq (ms : List Ty) (k : TypeKind) :
    memberForKind ms k = (ms.find? (fun m => m.kind = k)).map (reconMember ms) := by
  unfold memberForKind reconByKind
  rw [List.find?_map]
  rw [Option.map_map]
  rfl

theorem memberForKind_self {ms : List Ty} {t : Ty}
    (hnd : (ms.map Ty.kind).Nodup) (ht : t ∈ ms) :
    memberForKind ms t.kind = some (reconMember ms t) := by
  rw [memberForKind_eq, find?_kind_self hnd ht]
  rfl

theorem transformerForKind_self {ms : List Ty} {t : Ty}
    (hnd : (ms.map Ty.kind).Nodup) (ht : t ∈ ms) (hu : Bool) :
    transformerForKind ms hu t.kind =
      some (Transformer.decoding (reconMember ms t)
        (consumerFor hu (reconMember ms t))) := by
  unfold transformerForKind
  rw [find?_kind_self hnd ht, memberForKind_self hnd ht]

theorem replaceUnion_ok_inv {attrs : List String} {ms : List Ty} {out : ReplacementOut}
    (h : replaceUnion attrs ms = .ok out) :
    ms.length ≠ 0 ∧
    ∃ tString m0 rest,
      dedupFirst (memberRefs ms) = m0 :: rest ∧
      transformerForString ms (haveUnionOf ms) = .ok tString ∧
      ((transformerForKind ms (haveUnionOf ms) .classK).isSome &&
        (transformerForKind ms (haveUnionOf ms) .mapK).isSome) = false ∧
      out = { result := Ty.prim .anyK (additionalAttrs ms),
              transformation :=
                { targetType := if haveUnionOf ms then Ty.union attrs (m0 :: rest) else m0,
                  forward := Transformer.decodingChoice anyTy
                    (transformerForKind ms (haveUnionOf ms) .nullK)
                    (transformerForKind ms (haveUnionOf ms) .integerK)
                    (transformerForKind ms (haveUnionOf ms) .doubleK)
                    (transformerForKind ms (haveUnionOf ms) .boolK)
                    tString
                    (transformerForKind ms (haveUnionOf ms) .arrayK)
                    (if (transformerForKind ms (haveUnionOf ms) .classK).isSome = true
                     then transformerForKind ms (haveUnionOf ms) .classK
                     else transformerForKind ms (haveUnionOf ms) .mapK) },
              lostTypeAttributes := !haveUnionOf ms } := by
  unfold replaceUnion at h
  by_cases hlen : ms.length = 0
  · rw [if_pos hlen] at h
    exact absurd h (by simp)
  · rw [if_neg hlen] at h
    simp only [] at h
    refine ⟨hlen, ?_⟩
    cases hset : dedupFirst (memberRefs ms) with
    | nil =>
        rw [hset] at h
        exact absurd h (by simp)
    | cons m0 rest =>
        rw [hset] at h
        have huEq : haveUnionOf ms = decide (1 < (m0 :: rest).length) := by
          rw [haveUnionOf, hset]
        rw [← huEq] at h
        cases hts : transformerForString ms (haveUnionOf ms) with
        | error e =>
            rw [hts] at h
            exact absurd h (by simp)
        | ok tS =>
            rw [hts] at h
            simp only [] at h
            by_cases hcm : ((transformerForKind ms (haveUnionOf ms) .classK).isSome &&
                (transformerForKind ms (haveUnionOf ms) .mapK).isSome) = true
            · rw [if_pos hcm] at h
              exact absurd h (by simp)
            · rw [if_neg hcm] at h
              refine ⟨tS, m0, rest, rfl, rfl, by simpa using hcm, ?_⟩
              simp only [Except.ok.injEq] at h
              rw [← h]

theorem definedAll_all_some {l : List (Option Transformer)}
    (h : ∀ o ∈ l, o.isSome = true) : definedAll l = .ok l.reduceOption := by
  induction l with
  | nil => simp [definedAll, List.reduceOption]
  | cons o rest ih =>
      cases o with
      | none => exact absurd (h none (by simp)) (by simp)
      | some t =>
          rw [definedAll, ih (fun o ho => h o (by simp [ho]))]
          simp [List.reduceOption, Except.map]

theorem nodup_kinds_stringTypeMembers {ms : List Ty}
    (hnd : (ms.map Ty.kind).Nodup) :
    ((stringTypeMembers ms).map Ty.kind).Nodup := by
  have hsub : (stringTypeMembers ms).map Ty.kind |>.Sublist (ms.map Ty.kind) :=
    List.Sublist.map Ty.kind (List.filter_sublist ms)
  exact hsub.nodup hnd

theorem transformerForStringType_some {ms : List Ty} {t : Ty}
    (hnd : (ms.map Ty.kind).Nodup) (ht : t ∈ ms) (hst : isStringLike t = true)
    (hu : haveUnionOf ms = true) :
    transformerForStringType ms (haveUnionOf ms) t = some (stringAltFor ms t) ∧
    (stringAltFor ms t ≠ Transformer.decoding anyTy none) := by
  have hmk := memberForKind_self hnd ht
  unfold stringAltFor
  unfold transformerForStringType
  rw [hmk, hu]
  simp only []
  by_cases hks : t.kind = .stringK
  · simp [hks, consumerFor]
  · cases t with
    | enum a cs => simp [hks, makeEnumTransformer]
    | prim k a => simp [hks]
    | arr a i => simp [hks]
    | union a mems => simp [hks]

theorem definedAll_map_eq {sts : List Ty} {f : Ty → Option Transformer}
    {g : Ty → Transformer} (h : ∀ t ∈ sts, f t = some (g t)) :
    definedAll (sts.map f) = .ok (sts.map g) := by
  induction sts with
  | nil => simp [definedAll]
  | cons x xs ih =>
      rw [List.map_cons, h x (by simp), definedAll,
        ih (fun t ht => h t (by simp [ht]))]
      simp [Except.map]

theorem ne_of_kind_ne {t1 t2 : Ty} (h : t1.kind ≠ t2.kind) : t1 ≠ t2 :=
  fun he => h (by rw [he])

theorem transformerForString_two {ms : List Ty} (hnd : (ms.map Ty.kind).Nodup)
    {t1 t2 : Ty} {rest : List Ty} (hsm : stringTypeMembers ms = t1 :: t2 :: rest) :
    haveUnionOf ms = true ∧
    transformerForString ms (haveUnionOf ms) =
      .ok (some (Transformer.decoding stringTy (some (Transformer.choice stringTy
        ((stringTypeMembers ms).map (stringAltFor ms)))))) := by
  have hndS := nodup_kinds_stringTypeMembers hnd
  rw [hsm] at hndS
  have hk12 : t1.kind ≠ t2.kind := by
    simp only [List.map_cons, List.nodup_cons, List.mem_cons, List.mem_map] at hndS
    intro he
    exact hndS.1 (Or.inl he)
  have h1 : t1 ∈ stringTypeMembers ms := by rw [hsm]; simp
  have h2 : t2 ∈ stringTypeMembers ms := by rw [hsm]; simp
  have hu : haveUnionOf ms = true :=
    haveUnion_of_two_stringlike hnd h1 h2 (ne_of_kind_ne hk12)
  refine ⟨hu, ?_⟩
  have hall : ∀ t ∈ stringTypeMembers ms,
      transformerForStringType ms (haveUnionOf ms) t = some (stringAltFor ms t) := by
    intro t ht
    exact (transformerForStringType_some hnd (mem_of_mem_stringTypeMembers ht)
      (stringLike_of_mem_stringTypeMembers ht) hu).1
  unfold transformerForString
  rw [hsm]
  simp only []
  rw [show (t1 :: t2 :: rest).map (transformerForStringType ms (haveUnionOf ms)) =
      (t1 :: t2 :: rest).map (fun t => transformerForStringType ms (haveUnionOf ms) t) from rfl]
  rw [definedAll_map_eq (fun t ht => hall t (by rw [hsm]; exact ht))]
  simp [Except.map, hsm]

theorem dedupFirst_ne_nil {α : Type} [DecidableEq α] {l : List α} (h : l ≠ []) :
    dedupFirst l ≠ [] := by
  cases l with
  | nil => exact absurd rfl h
  | cons x xs =>
      have hx : x ∈ dedupFirst (x :: xs) := (mem_dedupFirst _ _).mpr (by simp)
      intro he
      rw [he] at hx
      simp at hx

theorem transformerForString_isOk {ms : List Ty} (hnd : (ms.map Ty.kind).Nodup) :
    ∃ tS, transformerForString ms (haveUnionOf ms) = .ok tS := by
  cases hsm : stringTypeMembers ms with
  | nil => exact ⟨none, by unfold transformerForString; rw [hsm]⟩
  | cons t1 ts =>
      cases ts with
      | nil =>
          refine ⟨transformerForKind ms (haveUnionOf ms) t1.kind, ?_⟩
          unfold transformerForString
          rw [hsm]
      | cons t2 rest => exact ⟨_, (transformerForString_two hnd hsm).2⟩

theorem replaceUnion_isOk {attrs : List String} {ms : List Ty}
    (hnd : (ms.map Ty.kind).Nodup) (hne : ms.length ≠ 0)
    (hcm : ((transformerForKind ms (haveUnionOf ms) .classK).isSome &&
      (transformerForKind ms (haveUnionOf ms) .mapK).isSome) = false) :
    ∃ out, replaceUnion attrs ms = .ok out := by
  obtain ⟨tS, hts⟩ := transformerForString_isOk hnd
  have hnil : ms ≠ [] := fun he => hne (by simp [he])
  have hd : dedupFirst (memberRefs ms) ≠ [] :=
    dedupFirst_ne_nil (by simp [memberRefs, hnil])
  unfold replaceUnion
  rw [if_neg hne]
  simp only []
  cases hset : dedupFirst (memberRefs ms) with
  | nil => exact absurd hset hd
  | cons m0 rest =>
      have huEq : haveUnionOf ms = decide (1 < (m0 :: rest).length) := by
        rw [haveUnionOf, hset]
      rw [← huEq, hts]
      simp only []
      simp only [hcm, Bool.false_eq_true, if_false]
      exact ⟨_, rfl⟩

theorem lexLeChars_total : ∀ l1 l2 : List Char,
    lexLeChars l1 l2 = true ∨ lexLeChars l2 l1 = true := by
  intro l1
  induction l1 with
  | nil => intro l2; left; rfl
  | cons c1 r1 ih =>
      intro l2
      cases l2 with
      | nil => right; rfl
      | cons c2 r2 =>
          by_cases h1 : c1.toNat < c2.toNat
          · left; simp [lexLeChars, h1]
          · by_cases h2 : c2.toNat < c1.toNat
            · right; simp [lexLeChars, h2]
            · rcases ih r2 with h | h
              · left; simp [lexLeChars, h1, h2, h]
              · right; simp [lexLeChars, h1, h2, h]

theorem strLe_total (a b : String) : strLe a b = true ∨ strLe b a = true :=
  lexLeChars_total a.data b.data

theorem lexLeChars_trans : ∀ l1 l2 l3 : List Char,
    lexLeChars l1 l2 = true → lexLeChars l2 l3 = true → lexLeChars l1 l3 = true := by
  intro l1
  induction l1 with
  | nil => intro l2 l3 _ _; rfl
  | cons c1 r1 ih =>
      intro l2 l3 h12 h23
      cases l2 with
      | nil => simp [lexLeChars] at h12
      | cons c2 r2 =>
          cases l3 with
          | nil => simp [lexLeChars] at h23
          | cons c3 r3 =>
              simp only [lexLeChars] at h12 h23 ⊢
              split_ifs at h12 h23 ⊢ <;> try rfl
              all_goals try omega
              all_goals exact ih r2 r3 h12 h23

theorem strLe_trans {a b c : String} (h1 : strLe a b = true) (h2 : strLe b c = true) :
    strLe a c = true :=
  lexLeChars_trans a.data b.data c.data h1 h2

theorem perm_insertCase (c : String) (l : List String) :
    (insertCase c l).Perm (c :: l) := by
  induction l with
  | nil => simp [insertCase]
  | cons x xs ih =>
      rw [insertCase]
      by_cases h : strLe c x = true
      · rw [if_pos h]
      · rw [if_neg h]
        exact (ih.cons x).trans (List.Perm.swap c x xs)

theorem perm_sortCases (l : List String) : (sortCases l).Perm l := by
  induction l with
  | nil => simp [sortCases]
  | cons c cs ih =>
      rw [sortCases]
      exact (perm_insertCase c (sortCases cs)).trans (ih.cons c)

theorem pairwise_insertCase {c : String} {l : List String}
    (h : List.Pairwise (fun a b => strLe a b = true) l) :
    List.Pairwise (fun a b => strLe a b = true) (insertCase c l) := by
  induction l with
  | nil => simp [insertCase]
  | cons x xs ih =>
      rw [insertCase]
      by_cases hcx : strLe c x = true
      · rw [if_pos hcx]
        refine List.Pairwise.cons ?_ h
        intro y hy
        rcases List.mem_cons.mp hy with hyx | hyxs
        · exact hyx ▸ hcx
        · exact strLe_trans hcx (List.rel_of_pairwise_cons h hyxs)
      · rw [if_neg hcx]
        refine List.Pairwise.cons ?_ (ih (List.Pairwise.sublist (List.sublist_cons_self x xs) h))
        intro y hy
        have hy' := (perm_insertCase c xs).mem_iff.mp hy
        rcases List.mem_cons.mp hy' with hyc | hyxs
        · rw [hyc]
          rcases strLe_total c x with hcx' | hxc
          · exact absurd hcx' hcx
          · exact hxc
        · exact List.rel_of_pairwise_cons h hyxs

theorem pairwise_sortCases (l : List String) :
    List.Pairwise (fun a b => strLe a b = true) (sortCases l) := by
  induction l with
  | nil => simp [sortCases]
  | cons c cs ih => exact pairwise_insertCase ih

/-- Claim C3: for every enumeration type, `replaceEnum` returns a plain
unrestricted string type whose attached Transformation has forward transformer
`Decode(string)` continuing into a single `Choice` containing, for each enum
case in lexicographically sorted order, a `StringMatch(case)` whose
continuation is a `StringProduce(case)`; the Transformation's target type is
an enum rebuilt with the original cases and original attributes. -/
theorem enum_replacement_shape (attrs cases : List String) :
    (replaceEnum attrs cases).result = Ty.prim .stringK [] ∧
    (replaceEnum attrs cases).transformation.targetType = Ty.enum attrs cases ∧
    (replaceEnum attrs cases).transformation.forward =
      Transformer.decoding stringTy (some (Transformer.choice stringTy
        ((sortCases cases).map (fun c => Transformer.stringMatch stringTy
          (some (Transformer.stringProducer stringTy none c)) c)))) ∧
    List.Pairwise (fun a b => strLe a b = true) (sortCases cases) ∧
    (sortCases cases).Perm cases :=
  ⟨rfl, rfl, rfl, pairwise_sortCases cases, perm_sortCases cases⟩

/-- Claim C6: for every array type selected for replacement, `replaceArray`
returns an array whose item type is the untyped "any" type, while the attached
Transformation's target type is an array over the (carried-over) original item
type with the original attributes, and the forward transformer is an
`ArrayDecode` over an any-item array whose result item type is the original
item type, with item transformer a trivial `Decode` into "any". -/
theorem array_replacement_shape (attrs : List String) (items : Ty) :
    (replaceArray attrs items).result = Ty.arr [] anyTy ∧
    (replaceArray attrs items).transformation.targetType = Ty.arr attrs items ∧
    (replaceArray attrs items).transformation.forward =
      Transformer.arrayDecoding (Ty.arr [] anyTy) none items
        (Transformer.decoding anyTy none) :=
  ⟨rfl, rfl, rfl⟩

/-- Claim C7: for every transformed-string primitive kind with a defined
target primitive kind, the dispatcher sends the type to
`replaceIntegerString`; the replacement is a plain unrestricted string type,
the forward transformer is `Decode(string)` into `ParseString`, and the
Transformation's target is a primitive of the target kind carrying the
original attributes. -/
theorem transformed_string_replacement_shape (k tk : TypeKind) (a : List String)
    (hk : targetTypeKindForTransformedStringTypeKind k = some tk) :
    replace (Ty.prim k a) = .ok (replaceIntegerString (Ty.prim k a)) ∧
    (replaceIntegerString (Ty.prim k a)).result = Ty.prim .stringK [] ∧
    (replaceIntegerString (Ty.prim k a)).transformation.forward =
      Transformer.decoding stringTy (some (Transformer.parseString stringTy none)) ∧
    (replaceIntegerString (Ty.prim k a)).transformation.targetType = Ty.prim tk a := by
  cases k <;> simp [targetTypeKindForTransformedStringTypeKind] at hk
  subst hk
  exact ⟨by simp [replace, isPrimitiveStringTypeKind, Ty.kind], rfl, rfl, rfl⟩

/-- Witness for the transformed-string replacement shape at the
integer-as-string kind. -/
theorem transformed_string_replacement_shape_witness :
    targetTypeKindForTransformedStringTypeKind .integerStringK = some .integerK ∧
    (replace (Ty.prim .integerStringK ["orig"]) =
        .ok (replaceIntegerString (Ty.prim .integerStringK ["orig"])) ∧
      (replaceIntegerString (Ty.prim .integerStringK ["orig"])).result =
        Ty.prim .stringK [] ∧
      (replaceIntegerString (Ty.prim .integerStringK ["orig"])).transformation.forward =
        Transformer.decoding stringTy (some (Transformer.parseString stringTy none)) ∧
      (replaceIntegerString (Ty.prim .integerStringK ["orig"])).transformation.targetType =
        Ty.prim .integerK ["orig"]) :=
  ⟨rfl, transformed_string_replacement_shape .integerStringK .integerK ["orig"] rfl⟩

/-- Claim C2: in `replaceUnion`, reconstituted members are deduplicated; iff
exactly one distinct handle remains, no union wrapper is constructed (the
Transformation's target is that single member type) and
`setLostTypeAttributes` is signaled — otherwise the target is a union over
the deduplicated member set and the flag is not signaled by this step. -/
theorem union_collapse_iff (attrs : List String) (ms : List Ty) (out : ReplacementOut)
    (h : replaceUnion attrs ms = .ok out) :
    (out.lostTypeAttributes = true ↔ (dedupFirst (memberRefs ms)).length = 1) ∧
    (∀ m, dedupFirst (memberRefs ms) = [m] → out.transformation.targetType = m) ∧
    (1 < (dedupFirst (memberRefs ms)).length →
      out.transformation.targetType = Ty.union attrs (dedupFirst (memberRefs ms)) ∧
      out.lostTypeAttributes = false) := by
  obtain ⟨hlen, tS, m0, rest, hset, hts, hcm, hout⟩ := replaceUnion_ok_inv h
  subst hout
  have hlen1 : (dedupFirst (memberRefs ms)).length = rest.length + 1 := by
    rw [hset]; rfl
  refine ⟨?_, ?_, ?_⟩
  · simp only [haveUnionOf, hlen1]
    constructor
    · intro hb
      by_contra hne
      have : 1 < rest.length + 1 := by omega
      simp [this] at hb
    · intro h1
      have : ¬1 < rest.length + 1 := by omega
      simp [this]
  · intro m hm
    rw [hset] at hm
    cases hm
    have hfalse : haveUnionOf ms = false := by
      simp [haveUnionOf, hlen1]
    simp [hfalse]
  · intro h1
    have htrue : haveUnionOf ms = true := by
      simp only [haveUnionOf, decide_eq_true_eq]
      exact h1
    simp [htrue, hset]

/-- Witness for the union collapse claim on the union
`{integer, integer-string}`, which collapses to the single member `integer`. -/
theorem union_collapse_iff_witness :
    replaceUnion [] [Ty.prim .integerK ["ia"], Ty.prim .integerStringK ["sa"]] =
      .ok (unionOutOrDefault [] [Ty.prim .integerK ["ia"], Ty.prim .integerStringK ["sa"]]) ∧
    (((unionOutOrDefault [] [Ty.prim .integerK ["ia"],
          Ty.prim .integerStringK ["sa"]]).lostTypeAttributes = true ↔
        (dedupFirst (memberRefs [Ty.prim .integerK ["ia"],
          Ty.prim .integerStringK ["sa"]])).length = 1) ∧
      (∀ m, dedupFirst (memberRefs [Ty.prim .integerK ["ia"],
          Ty.prim .integerStringK ["sa"]]) = [m] →
        (unionOutOrDefault [] [Ty.prim .integerK ["ia"],
          Ty.prim .integerStringK ["sa"]]).transformation.targetType = m) ∧
      (1 < (dedupFirst (memberRefs [Ty.prim .integerK ["ia"],
          Ty.prim .integerStringK ["sa"]])).length →
        (unionOutOrDefault [] [Ty.prim .integerK ["ia"],
          Ty.prim .integerStringK ["sa"]]).transformation.targetType =
          Ty.union [] (dedupFirst (memberRefs [Ty.prim .integerK ["ia"],
            Ty.prim .integerStringK ["sa"]])) ∧
        (unionOutOrDefault [] [Ty.prim .integerK ["ia"],
          Ty.prim .integerStringK ["sa"]]).lostTypeAttributes = false)) :=
  ⟨by decide, union_collapse_iff [] _ _ (by decide)⟩

/-- Claim C8: the pass aborts with a fatal internal error on an empty union
member set, on a union containing both a class member and a map member, and
when the dispatcher is given a type that is none of union, array, enum, or a
transformed-string primitive. -/
theorem fatal_invariant_violations (attrs : List String) (ms : List Ty)
    (k : TypeKind) (a : List String)
    (hclass : (ms.find? (fun m => m.kind = .classK)).isSome = true)
    (hmap : (ms.find? (fun m => m.kind = .mapK)).isSome = true)
    (hk : isPrimitiveStringTypeKind k = false) :
    (∃ e, replaceUnion attrs ([] : List Ty) = .error e) ∧
    (∃ e, replaceUnion attrs ms = .error e) ∧
    (∃ e, replace (Ty.prim k a) = .error e) := by
  refine ⟨⟨"We cannot have empty unions", rfl⟩, ?_, ?_⟩
  · cases hru : replaceUnion attrs ms with
    | error e => exact ⟨e, rfl⟩
    | ok out =>
        exfalso
        obtain ⟨hlen, tS, m0, rest, hset, hts, hcm, hout⟩ := replaceUnion_ok_inv hru
        obtain ⟨mc, hmc⟩ := Option.isSome_iff_exists.mp hclass
        obtain ⟨mm, hmm⟩ := Option.isSome_iff_exists.mp hmap
        have hc : (transformerForKind ms (haveUnionOf ms) .classK).isSome = true := by
          unfold transformerForKind
          rw [hmc, memberForKind_eq, hmc]
          simp
        have hm : (transformerForKind ms (haveUnionOf ms) .mapK).isSome = true := by
          unfold transformerForKind
          rw [hmm, memberForKind_eq, hmm]
          simp
        rw [hc, hm] at hcm
        simp at hcm
  · refine ⟨"Cannot make transformation for type", ?_⟩
    simp [replace, Ty.kind, hk]

/-- Witness for the fatal invariant violations: a class-and-map union and a
plain-string primitive (not a transformed-string kind under the modelled
predicate). -/
theorem fatal_invariant_violations_witness :
    ((([Ty.prim .classK [], Ty.prim .mapK []] : List Ty).find?
        (fun m => m.kind = .classK)).isSome = true ∧
      (([Ty.prim .classK [], Ty.prim .mapK []] : List Ty).find?
        (fun m => m.kind = .mapK)).isSome = true ∧
      isPrimitiveStringTypeKind .stringK = false) ∧
    ((∃ e, replaceUnion [] ([] : List Ty) = .error e) ∧
      (∃ e, replaceUnion [] [Ty.prim .classK [], Ty.prim .mapK []] = .error e) ∧
      (∃ e, replace (Ty.prim .stringK ["x"]) = .error e)) :=
  ⟨⟨by decide, by decide, by decide⟩,
    fatal_invariant_violations [] [Ty.prim .classK [], Ty.prim .mapK []]
      .stringK ["x"] (by decide) (by decide) (by decide)⟩

theorem additionalAttrs_foldl (ms : List Ty) : ∀ acc : List String,
    ms.foldl (fun acc t =>
      if isPrimitiveStringTypeKind t.kind &&
          (targetTypeKindForTransformedStringTypeKind t.kind).isSome then
        acc ++ t.attrsOf
      else acc) acc =
    acc ++ ((ms.filter (fun t => isPrimitiveStringTypeKind t.kind &&
      (targetTypeKindForTransformedStringTypeKind t.kind).isSome)).map Ty.attrsOf).flatten := by
  induction ms with
  | nil => intro acc; simp
  | cons t ts ih =>
      intro acc
      by_cases hp : (isPrimitiveStringTypeKind t.kind &&
          (targetTypeKindForTransformedStringTypeKind t.kind).isSome) = true
      · simp only [List.foldl_cons, List.filter_cons, hp, if_pos, ih]
        simp [List.append_assoc]
      · simp only [List.foldl_cons, List.filter_cons, hp, ih]
        simp [hp]

theorem additionalAttrs_flatten (ms : List Ty) :
    additionalAttrs ms = ((ms.filter (fun t => isPrimitiveStringTypeKind t.kind &&
      (targetTypeKindForTransformedStringTypeKind t.kind).isSome)).map Ty.attrsOf).flatten := by
  rw [additionalAttrs, additionalAttrs_foldl ms []]
  simp

/-- Claim C5: every union member of a transformed-string kind with a defined
target kind is redirected to the target primitive kind — the existing member
of the target kind (carried over) when present, a fresh primitive of the
target kind otherwise — and its original attributes are accumulated and
merged onto the final "any" replacement type; all other members are
reconstituted unchanged. -/
theorem union_member_redirection (attrs : List String) (ms : List Ty)
    (out : ReplacementOut) (h : replaceUnion attrs ms = .ok out) :
    out.result = Ty.prim .anyK (additionalAttrs ms) ∧
    additionalAttrs ms = ((ms.filter (fun t => isPrimitiveStringTypeKind t.kind &&
      (targetTypeKindForTransformedStringTypeKind t.kind).isSome)).map Ty.attrsOf).flatten ∧
    (∀ t ∈ ms, ∀ tk, targetTypeKindForTransformedStringTypeKind t.kind = some tk →
      (∀ m, ms.find? (fun x => x.kind = tk) = some m → reconMember ms t = m) ∧
      (ms.find? (fun x => x.kind = tk) = none → reconMember ms t = Ty.prim tk [])) ∧
    (∀ t ∈ ms, targetTypeKindForTransformedStringTypeKind t.kind = none →
      reconMember ms t = t) := by
  obtain ⟨hlen, tS, m0, rest, hset, hts, hcm, hout⟩ := replaceUnion_ok_inv h
  refine ⟨by rw [hout], additionalAttrs_flatten ms, ?_, ?_⟩
  · intro t ht tk htk
    have hps : isPrimitiveStringTypeKind t.kind = true := by
      cases hk : t.kind <;> rw [hk] at htk <;>
        simp [targetTypeKindForTransformedStringTypeKind] at htk <;>
        simp [isPrimitiveStringTypeKind]
    constructor
    · intro m hm
      unfold reconMember
      rw [hps, htk]
      simp only []
      simp [hm]
    · intro hm
      unfold reconMember
      rw [hps, htk]
      simp only []
      simp [hm]
  · intro t ht htk
    unfold reconMember
    by_cases hps : isPrimitiveStringTypeKind t.kind = true
    · rw [hps, htk]
      simp
    · simp only [Bool.not_eq_true] at hps
      rw [hps]
      simp

/-- Witness for the member redirection claim on the union
`{integer-string, string}`: the transformed-string member is redirected to a
fresh integer primitive and its attributes are merged onto the "any"
replacement. -/
theorem union_member_redirection_witness :
    replaceUnion [] [Ty.prim .integerStringK ["xa"], Ty.prim .stringK []] =
      .ok (unionOutOrDefault [] [Ty.prim .integerStringK ["xa"], Ty.prim .stringK []]) ∧
    ((unionOutOrDefault [] [Ty.prim .integerStringK ["xa"],
        Ty.prim .stringK []]).result =
      Ty.prim .anyK (additionalAttrs [Ty.prim .integerStringK ["xa"],
        Ty.prim .stringK []]) ∧
    additionalAttrs [Ty.prim .integerStringK ["xa"], Ty.prim .stringK []] =
      ((([Ty.prim .integerStringK ["xa"], Ty.prim .stringK []] : List Ty).filter
        (fun t => isPrimitiveStringTypeKind t.kind &&
          (targetTypeKindForTransformedStringTypeKind t.kind).isSome)).map
            Ty.attrsOf).flatten ∧
    (∀ t ∈ ([Ty.prim .integerStringK ["xa"], Ty.prim .stringK []] : List Ty),
      ∀ tk, targetTypeKindForTransformedStringTypeKind t.kind = some tk →
      (∀ m, ([Ty.prim .integerStringK ["xa"], Ty.prim .stringK []] : List Ty).find?
          (fun x => x.kind = tk) = some m →
        reconMember [Ty.prim .integerStringK ["xa"], Ty.prim .stringK []] t = m) ∧
      (([Ty.prim .integerStringK ["xa"], Ty.prim .stringK []] : List Ty).find?
          (fun x => x.kind = tk) = none →
        reconMember [Ty.prim .integerStringK ["xa"], Ty.prim .stringK []] t =
          Ty.prim tk [])) ∧
    (∀ t ∈ ([Ty.prim .integerStringK ["xa"], Ty.prim .stringK []] : List Ty),
      targetTypeKindForTransformedStringTypeKind t.kind = none →
      reconMember [Ty.prim .integerStringK ["xa"], Ty.prim .stringK []] t = t)) :=
  ⟨by decide, union_member_redirection [] _ _ (by decide)⟩

theorem stringAltFor_string {ms : List Ty} {t : Ty}
    (hnd : (ms.map Ty.kind).Nodup) (ht : t ∈ ms)
    (hu : haveUnionOf ms = true) (hk : t.kind = .stringK) :
    stringAltFor ms t = Transformer.unionInstantiation (reconMember ms t) := by
  unfold stringAltFor transformerForStringType
  rw [memberForKind_self hnd ht, hu]
  simp only []
  simp [hk, consumerFor]

theorem stringAltFor_enum {ms : List Ty} {a cs : List String}
    (hnd : (ms.map Ty.kind).Nodup) (ht : Ty.enum a cs ∈ ms)
    (hu : haveUnionOf ms = true) :
    stringAltFor ms (Ty.enum a cs) =
      makeEnumTransformer cs stringTy
        (some (Transformer.unionInstantiation (reconMember ms (Ty.enum a cs)))) := by
  unfold stringAltFor transformerForStringType
  rw [memberForKind_self hnd ht, hu]
  simp only []
  simp [Ty.kind, consumerFor]

theorem stringAltFor_other {ms : List Ty} {t : Ty}
    (hnd : (ms.map Ty.kind).Nodup) (ht : t ∈ ms)
    (hu : haveUnionOf ms = true) (hk1 : t.kind ≠ .stringK) (hk2 : t.kind ≠ .enumK) :
    stringAltFor ms t =
      Transformer.parseString stringTy
        (some (Transformer.unionInstantiation (reconMember ms t))) := by
  unfold stringAltFor transformerForStringType
  rw [memberForKind_self hnd ht, hu]
  simp only []
  cases t with
  | enum a cs => exact absurd rfl hk2
  | prim k a => simp [hk1, consumerFor]
  | arr a i => simp [hk1, consumerFor]
  | union a mems => simp [hk1, consumerFor]

/-- Claim C4: the string branch of the top-level `DecodingChoice` follows
exactly three cases by the number of string-like union members: absent for
zero; the member's own kind transformer for exactly one; for more than one, a
string-typed `Decode` into a `Choice` with one alternative per string-like
member — `UnionInstantiate` for the plain string member, the enum case-matcher
for an enumeration member, `ParseString` for any other transformed-string
member. -/
theorem string_branch_cases (attrs : List String) (ms : List Ty)
    (out : ReplacementOut) (hnd : (ms.map Ty.kind).Nodup)
    (h : replaceUnion attrs ms = .ok out) :
    (stringTypeMembers ms = [] → stringBranch out.transformation.forward = none) ∧
    (∀ t, stringTypeMembers ms = [t] →
      stringBranch out.transformation.forward =
        transformerForKind ms (haveUnionOf ms) t.kind) ∧
    (1 < (stringTypeMembers ms).length →
      stringBranch out.transformation.forward =
        some (Transformer.decoding stringTy (some (Transformer.choice stringTy
          ((stringTypeMembers ms).map (stringAltFor ms))))) ∧
      ∀ t ∈ stringTypeMembers ms,
        (t.kind = .stringK →
          stringAltFor ms t = Transformer.unionInstantiation (reconMember ms t)) ∧
        (∀ a cs, t = Ty.enum a cs →
          stringAltFor ms t = makeEnumTransformer cs stringTy
            (some (Transformer.unionInstantiation (reconMember ms t)))) ∧
        (t.kind ≠ .stringK → t.kind ≠ .enumK →
          stringAltFor ms t = Transformer.parseString stringTy
            (some (Transformer.unionInstantiation (reconMember ms t))))) := by
  obtain ⟨hlen, tS, m0, rest, hset, hts, hcm, hout⟩ := replaceUnion_ok_inv h
  have hsb : stringBranch out.transformation.forward = tS := by
    rw [hout]; rfl
  refine ⟨?_, ?_, ?_⟩
  · intro hsm
    unfold transformerForString at hts
    rw [hsm] at hts
    simp only [Except.ok.injEq] at hts
    rw [hsb, ← hts]
  · intro t hsm
    unfold transformerForString at hts
    rw [hsm] at hts
    simp only [Except.ok.injEq] at hts
    rw [hsb, ← hts]
  · intro h2
    cases hsm : stringTypeMembers ms with
    | nil => rw [hsm] at h2; simp at h2
    | cons t1 ts =>
        cases ts with
        | nil => rw [hsm] at h2; simp at h2
        | cons t2 rest2 =>
            obtain ⟨hu, htwo⟩ := transformerForString_two hnd hsm
            rw [hts] at htwo
            simp only [Except.ok.injEq] at htwo
            refine ⟨by rw [hsb, htwo, hsm], ?_⟩
            intro t ht
            have ht' : t ∈ stringTypeMembers ms := by rw [hsm]; exact ht
            have htm := mem_of_mem_stringTypeMembers ht'
            refine ⟨fun hk => stringAltFor_string hnd htm hu hk, ?_, ?_⟩
            · intro a cs he
              subst he
              exact stringAltFor_enum hnd htm hu
            · intro hk1 hk2
              exact stringAltFor_other hnd htm hu hk1 hk2

/-- Witness for the string-branch cases on the union
`{string, integer-string}` (two string-like members). -/
theorem string_branch_cases_witness :
    ((([Ty.prim .stringK ["sa"], Ty.prim .integerStringK []] : List Ty).map
        Ty.kind).Nodup ∧
      replaceUnion [] [Ty.prim .stringK ["sa"], Ty.prim .integerStringK []] =
        .ok (unionOutOrDefault [] [Ty.prim .stringK ["sa"],
          Ty.prim .integerStringK []])) ∧
    (1 < (stringTypeMembers [Ty.prim .stringK ["sa"],
        Ty.prim .integerStringK []]).length →
      stringBranch (unionOutOrDefault [] [Ty.prim .stringK ["sa"],
          Ty.prim .integerStringK []]).transformation.forward =
        some (Transformer.decoding stringTy (some (Transformer.choice stringTy
          ((stringTypeMembers [Ty.prim .stringK ["sa"],
            Ty.prim .integerStringK []]).map
              (stringAltFor [Ty.prim .stringK ["sa"],
                Ty.prim .integerStringK []]))))) ∧
      ∀ t ∈ stringTypeMembers [Ty.prim .stringK ["sa"], Ty.prim .integerStringK []],
        (t.kind = .stringK →
          stringAltFor [Ty.prim .stringK ["sa"], Ty.prim .integerStringK []] t =
            Transformer.unionInstantiation
              (reconMember [Ty.prim .stringK ["sa"], Ty.prim .integerStringK []] t)) ∧
        (∀ a cs, t = Ty.enum a cs →
          stringAltFor [Ty.prim .stringK ["sa"], Ty.prim .integerStringK []] t =
            makeEnumTransformer cs stringTy
              (some (Transformer.unionInstantiation
                (reconMember [Ty.prim .stringK ["sa"],
                  Ty.prim .integerStringK []] t)))) ∧
        (t.kind ≠ .stringK → t.kind ≠ .enumK →
          stringAltFor [Ty.prim .stringK ["sa"], Ty.prim .integerStringK []] t =
            Transformer.parseString stringTy
              (some (Transformer.unionInstantiation
                (reconMember [Ty.prim .stringK ["sa"],
                  Ty.prim .integerStringK []] t))))) :=
  ⟨⟨by decide, by decide⟩,
    (string_branch_cases [] [Ty.prim .stringK ["sa"], Ty.prim .integerStringK []]
      (unionOutOrDefault [] [Ty.prim .stringK ["sa"], Ty.prim .integerStringK []])
      (by decide) (by decide)).2.2⟩

/-- Claim C9 (amended): in the combined string-branch `Choice`, the
alternatives appear exactly in the union's string-like member iteration order
(the order of `stringTypeMembers`); the plain-string alternative is not
specially ordered — it sits wherever the member order puts it, so it may
precede (and then shadows) the enumeration and `ParseString` alternatives. -/
theorem string_branch_alternative_order (attrs : List String) (ms : List Ty)
    (out : ReplacementOut) (hnd : (ms.map Ty.kind).Nodup)
    (h : replaceUnion attrs ms = .ok out)
    (h2 : 1 < (stringTypeMembers ms).length) :
    ∃ alts, stringBranch out.transformation.forward =
        some (Transformer.decoding stringTy (some (Transformer.choice stringTy alts))) ∧
      alts.length = (stringTypeMembers ms).length ∧
      ∀ i (hi : i < alts.length) (hi2 : i < (stringTypeMembers ms).length),
        alts.get ⟨i, hi⟩ = stringAltFor ms ((stringTypeMembers ms).get ⟨i, hi2⟩) := by
  obtain ⟨hlen, tS, m0, rest, hset, hts, hcm, hout⟩ := replaceUnion_ok_inv h
  have hsb : stringBranch out.transformation.forward = tS := by
    rw [hout]; rfl
  cases hsm : stringTypeMembers ms with
  | nil => rw [hsm] at h2; simp at h2
  | cons t1 ts =>
      cases ts with
      | nil => rw [hsm] at h2; simp at h2
      | cons t2 rest2 =>
          obtain ⟨hu, htwo⟩ := transformerForString_two hnd hsm
          rw [hts] at htwo
          simp only [Except.ok.injEq] at htwo
          refine ⟨(stringTypeMembers ms).map (stringAltFor ms), ?_, by simp [hsm], ?_⟩
          · rw [hsb, htwo]
          · intro i hi hi2
            simp only [List.get_eq_getElem, hsm, List.getElem_map]

/-- Counterexample to claim C9 as stated: for the union
`{string, enum{A,B}}` with the plain string member first, the synthesized
string-branch `Choice` puts the plain-string `UnionInstantiate` alternative
first and the enum case-matcher second, and decoding `"A"` is captured by the
plain-string alternative (shadowing the enum match). -/
theorem string_branch_plain_first_counterexample :
    stringBranch (unionFwd [] [Ty.prim .stringK ["sa"], Ty.enum ["ea"] ["A", "B"]]) =
      some (Transformer.decoding stringTy (some (Transformer.choice stringTy
        [Transformer.unionInstantiation (Ty.prim .stringK ["sa"]),
         makeEnumTransformer ["A", "B"] stringTy
           (some (Transformer.unionInstantiation (Ty.enum ["ea"] ["A", "B"])))]))) ∧
    eval (unionFwd [] [Ty.prim .stringK ["sa"], Ty.enum ["ea"] ["A", "B"]])
        (Value.vstr "A") =
      some (Value.vtagged (Ty.prim .stringK ["sa"]) (Value.vstr "A")) := by
  constructor
  · decide
  · simp [unionFwd, replaceUnion, eval, evalChain, evalBranch, evalAlts, evalItems,
      Except.map, transformerForString, transformerForKind, transformerForStringType,
      stringTypeMembers, memberRefs, memberForKind, reconByKind, reconMember, dedupFirst,
      dedupFirstAux, additionalAttrs, definedAll, consumerFor, isStringLike,
      isPrimitiveStringTypeKind, targetTypeKindForTransformedStringTypeKind, Ty.kind,
      anyTy, stringTy, makeEnumTransformer, sortCases, insertCase, strLe, lexLeChars]

/-- Witness for the amended alternative-order claim at the
`{string, enum{A,B}}` union. -/
theorem string_branch_alternative_order_witness :
    ((([Ty.prim .stringK ["sa"], Ty.enum ["ea"] ["A", "B"]] : List Ty).map
        Ty.kind).Nodup ∧
      replaceUnion [] [Ty.prim .stringK ["sa"], Ty.enum ["ea"] ["A", "B"]] =
        .ok (unionOutOrDefault [] [Ty.prim .stringK ["sa"],
          Ty.enum ["ea"] ["A", "B"]]) ∧
      1 < (stringTypeMembers [Ty.prim .stringK ["sa"],
        Ty.enum ["ea"] ["A", "B"]]).length) ∧
    (∃ alts, stringBranch (unionOutOrDefault [] [Ty.prim .stringK ["sa"],
          Ty.enum ["ea"] ["A", "B"]]).transformation.forward =
        some (Transformer.decoding stringTy (some (Transformer.choice stringTy alts))) ∧
      alts.length = (stringTypeMembers [Ty.prim .stringK ["sa"],
        Ty.enum ["ea"] ["A", "B"]]).length ∧
      ∀ i (hi : i < alts.length)
        (hi2 : i < (stringTypeMembers [Ty.prim .stringK ["sa"],
          Ty.enum ["ea"] ["A", "B"]]).length),
        alts.get ⟨i, hi⟩ =
          stringAltFor [Ty.prim .stringK ["sa"], Ty.enum ["ea"] ["A", "B"]]
            ((stringTypeMembers [Ty.prim .stringK ["sa"],
              Ty.enum ["ea"] ["A", "B"]]).get ⟨i, hi2⟩)) :=
  ⟨⟨by decide, by decide, by decide⟩,
    string_branch_alternative_order [] [Ty.prim .stringK ["sa"], Ty.enum ["ea"] ["A", "B"]]
      (unionOutOrDefault [] [Ty.prim .stringK ["sa"], Ty.enum ["ea"] ["A", "B"]])
      (by decide) (by decide) (by decide)⟩

theorem dedupFirstAux_length_le {α : Type} [DecidableEq α] :
    ∀ (l acc : List α), (dedupFirstAux l acc).length ≤ acc.length + l.length := by
  intro l
  induction l with
  | nil => intro acc; simp [dedupFirstAux]
  | cons x xs ih =>
      intro acc
      rw [dedupFirstAux]
      by_cases hx : x ∈ acc
      · rw [if_pos hx]
        have := ih acc
        simp only [List.length_cons]
        omega
      · rw [if_neg hx]
        have := ih (acc ++ [x])
        simp only [List.length_append, List.length_singleton, List.length_cons, List.length_nil] at this ⊢
        omega

theorem dedupFirst_length_le {α : Type} [DecidableEq α] (l : List α) :
    (dedupFirst l).length ≤ l.length := by
  have := dedupFirstAux_length_le l ([] : List α)
  simpa [dedupFirst] using this

theorem exists_non_enum {ms : List Ty} (hnd : (ms.map Ty.kind).Nodup)
    (hlen : 2 ≤ ms.length) : ∃ t ∈ ms, t.kind ≠ .enumK := by
  cases ms with
  | nil => simp at hlen
  | cons a ts =>
      cases ts with
      | nil => simp at hlen
      | cons b ts2 =>
          by_cases ha : a.kind = .enumK
          · refine ⟨b, by simp, ?_⟩
            intro hb
            simp only [List.map_cons, List.nodup_cons, List.mem_cons, List.mem_map] at hnd
            exact hnd.1 (Or.inl (ha.trans hb.symm))
          · exact ⟨a, by simp, ha⟩

theorem containsUIList_of_mem {L : List Transformer} {t : Transformer}
    (ht : t ∈ L) (h : containsUI t = true) : containsUI.containsUIList L = true := by
  induction L with
  | nil => simp at ht
  | cons x xs ih =>
      rw [containsUI.containsUIList]
      rcases List.mem_cons.mp ht with he | hm
      · rw [← he, h]
        simp
      · rw [ih hm]
        simp

theorem transformerForKind_cases (ms : List Ty) (hu : Bool) (k : TypeKind) :
    transformerForKind ms hu k = none ∨
    ∃ m, ms.find? (fun x => x.kind = k) = some m ∧
      transformerForKind ms hu k =
        some (Transformer.decoding (reconMember ms m)
          (consumerFor hu (reconMember ms m))) := by
  unfold transformerForKind
  cases hf : ms.find? (fun x => x.kind = k) with
  | none => exact Or.inl rfl
  | some m =>
      refine Or.inr ⟨m, rfl, ?_⟩
      rw [memberForKind_eq, hf]
      rfl

theorem mem_stringTypeMembers {ms : List Ty} {t : Ty} (htm : t ∈ ms)
    (hst : isStringLike t = true) : t ∈ stringTypeMembers ms :=
  List.mem_filter.mpr ⟨htm, hst⟩

theorem containsUI_tfk_branch {ms : List Ty} {t : Ty}
    (hnd : (ms.map Ty.kind).Nodup) (htm : t ∈ ms) (hu : haveUnionOf ms = true) :
    containsUI.containsUIOpt (transformerForKind ms (haveUnionOf ms) t.kind) = true := by
  rw [transformerForKind_self hnd htm, hu]
  simp [containsUI.containsUIOpt, containsUI, consumerFor]

theorem containsUI_stringAlt {ms : List Ty} {t : Ty}
    (hnd : (ms.map Ty.kind).Nodup) (htm : t ∈ ms) (hu : haveUnionOf ms = true)
    (hne : t.kind ≠ .enumK) (hsl : isStringLike t = true) :
    containsUI (stringAltFor ms t) = true := by
  by_cases hks : t.kind = .stringK
  · rw [stringAltFor_string hnd htm hu hks]
    simp [containsUI]
  · rw [stringAltFor_other hnd htm hu hks hne]
    simp [containsUI, containsUI.containsUIOpt]

theorem containsUI_string_branch {ms : List Ty} {t : Ty} {tS : Option Transformer}
    (hnd : (ms.map Ty.kind).Nodup) (htm : t ∈ ms) (hu : haveUnionOf ms = true)
    (hne : t.kind ≠ .enumK) (hsl : isStringLike t = true)
    (hts : transformerForString ms (haveUnionOf ms) = .ok tS) :
    containsUI.containsUIOpt tS = true := by
  have hmem : t ∈ stringTypeMembers ms := mem_stringTypeMembers htm hsl
  cases hsm : stringTypeMembers ms with
  | nil => rw [hsm] at hmem; simp at hmem
  | cons t1 ts =>
      cases ts with
      | nil =>
          unfold transformerForString at hts
          rw [hsm] at hts
          simp only [Except.ok.injEq] at hts
          rw [hsm] at hmem
          simp only [List.mem_singleton] at hmem
          subst hmem
          rw [← hts]
          exact containsUI_tfk_branch hnd htm hu
      | cons t2 rest2 =>
          obtain ⟨_, htwo⟩ := transformerForString_two hnd hsm
          rw [hts] at htwo
          simp only [Except.ok.injEq] at htwo
          subst htwo
          have halt : containsUI (stringAltFor ms t) = true :=
            containsUI_stringAlt hnd htm hu hne hsl
          have hmm : stringAltFor ms t ∈ (stringTypeMembers ms).map (stringAltFor ms) :=
            List.mem_map_of_mem (stringAltFor ms) hmem
          simp only [containsUI.containsUIOpt, containsUI]
          rw [containsUIList_of_mem hmm halt]

theorem containsUI_of_haveUnion {attrs : List String} {ms : List Ty}
    {out : ReplacementOut} (hnd : (ms.map Ty.kind).Nodup)
    (hhk : ∀ t ∈ ms, handledKind t.kind = true)
    (h : replaceUnion attrs ms = .ok out) (hu : haveUnionOf ms = true) :
    containsUI out.transformation.forward = true := by
  obtain ⟨hlen, tS, m0, rest, hset, hts, hcm, hout⟩ := replaceUnion_ok_inv h
  have hlen2 : 2 ≤ ms.length := by
    have h1 : 1 < (dedupFirst (memberRefs ms)).length := by
      have := hu
      simp only [haveUnionOf, decide_eq_true_eq] at this
      exact this
    have h2 := dedupFirst_length_le (memberRefs ms)
    have h3 : (memberRefs ms).length = ms.length := by simp [memberRefs]
    omega
  obtain ⟨t, htm, hte⟩ := exists_non_enum hnd hlen2
  subst hout
  simp only [containsUI, Bool.or_eq_true]
  cases hk : t.kind
  case unionK => exact absurd (hhk t htm) (by simp [handledKind, hk])
  case anyK => exact absurd (hhk t htm) (by simp [handledKind, hk])
  case enumK => exact absurd hk hte
  case nullK =>
      have hb := containsUI_tfk_branch hnd htm hu
      rw [hk] at hb
      tauto
  case integerK =>
      have hb := containsUI_tfk_branch hnd htm hu
      rw [hk] at hb
      tauto
  case doubleK =>
      have hb := containsUI_tfk_branch hnd htm hu
      rw [hk] at hb
      tauto
  case boolK =>
      have hb := containsUI_tfk_branch hnd htm hu
      rw [hk] at hb
      tauto
  case arrayK =>
      have hb := containsUI_tfk_branch hnd htm hu
      rw [hk] at hb
      tauto
  case classK =>
      have hself := transformerForKind_self hnd htm (haveUnionOf ms)
      rw [hk] at hself
      have hb := containsUI_tfk_branch hnd htm hu
      rw [hk] at hb
      rw [if_pos (by rw [hself]; rfl)]
      tauto
  case mapK =>
      have hself := transformerForKind_self hnd htm (haveUnionOf ms)
      rw [hk] at hself
      have hb := containsUI_tfk_branch hnd htm hu
      rw [hk] at hb
      have hms : (transformerForKind ms (haveUnionOf ms) .mapK).isSome = true := by
        rw [hself]; rfl
      have hcs : (transformerForKind ms (haveUnionOf ms) .classK).isSome = false := by
        cases hcl : (transformerForKind ms (haveUnionOf ms) .classK).isSome
        · rfl
        · rw [hcl, hms] at hcm
          simp at hcm
      rw [if_neg (by simp [hcs])]
      tauto
  case stringK =>
      have hb := containsUI_string_branch hnd htm hu hte
        (by simp [isStringLike, hk]) hts
      tauto
  case integerStringK =>
      have hb := containsUI_string_branch hnd htm hu hte
        (by simp [isStringLike, hk, isPrimitiveStringTypeKind]) hts
      tauto
  case dateTimeK =>
      have hb := containsUI_string_branch hnd htm hu hte
        (by simp [isStringLike, hk, isPrimitiveStringTypeKind]) hts
      tauto

theorem containsUIOpt_bare {b : Option Transformer}
    (hb : b = none ∨ ∃ m, b = some (Transformer.decoding m none)) :
    containsUI.containsUIOpt b = false := by
  rcases hb with hb | ⟨m, hb⟩ <;> subst hb <;>
    simp [containsUI.containsUIOpt, containsUI]

theorem bare_branches_of_not_haveUnion {attrs : List String} {ms : List Ty}
    {out : ReplacementOut} (hnd : (ms.map Ty.kind).Nodup)
    (h : replaceUnion attrs ms = .ok out) (hu : haveUnionOf ms = false) :
    ∀ b ∈ dcBranchList out.transformation.forward,
      b = none ∨ ∃ m, b = some (Transformer.decoding m none) := by
  obtain ⟨hlen, tS, m0, rest, hset, hts, hcm, hout⟩ := replaceUnion_ok_inv h
  have htfk : ∀ k, transformerForKind ms (haveUnionOf ms) k = none ∨
      ∃ m, transformerForKind ms (haveUnionOf ms) k =
        some (Transformer.decoding m none) := by
    intro k
    rcases transformerForKind_cases ms (haveUnionOf ms) k with hc | ⟨m, _, hc⟩
    · exact Or.inl hc
    · refine Or.inr ⟨reconMember ms m, ?_⟩
      rw [hc, hu]
      rfl
  have htS : tS = none ∨ ∃ m, tS = some (Transformer.decoding m none) := by
    cases hsm : stringTypeMembers ms with
    | nil =>
        unfold transformerForString at hts
        rw [hsm] at hts
        simp only [Except.ok.injEq] at hts
        exact Or.inl hts.symm
    | cons t1 ts =>
        cases ts with
        | nil =>
            unfold transformerForString at hts
            rw [hsm] at hts
            simp only [Except.ok.injEq] at hts
            rw [← hts]
            exact htfk t1.kind
        | cons t2 rest2 =>
            have := (transformerForString_two hnd hsm).1
            rw [this] at hu
            simp at hu
  subst hout
  intro b hb
  simp only [dcBranchList, List.mem_cons, List.not_mem_nil, or_false] at hb
  rcases hb with hb | hb | hb | hb | hb | hb | hb <;> subst hb
  · exact htfk .nullK
  · exact htfk .integerK
  · exact htfk .doubleK
  · exact htfk .boolK
  · exact htS
  · exact htfk .arrayK
  · by_cases hcl : (transformerForKind ms (haveUnionOf ms) .classK).isSome = true
    · rw [if_pos hcl]
      exact htfk .classK
    · rw [if_neg hcl]
      exact htfk .mapK

theorem not_containsUI_of_not_haveUnion {attrs : List String} {ms : List Ty}
    {out : ReplacementOut} (hnd : (ms.map Ty.kind).Nodup)
    (h : replaceUnion attrs ms = .ok out) (hu : haveUnionOf ms = false) :
    containsUI out.transformation.forward = false := by
  have hbare := bare_branches_of_not_haveUnion hnd h hu
  obtain ⟨hlen, tS, m0, rest, hset, hts, hcm, hout⟩ := replaceUnion_ok_inv h
  rw [hout] at hbare ⊢
  simp only [dcBranchList, List.mem_cons, List.not_mem_nil, or_false] at hbare
  simp only [containsUI, Bool.or_eq_false_iff]
  refine ⟨⟨⟨⟨⟨⟨?_, ?_⟩, ?_⟩, ?_⟩, ?_⟩, ?_⟩, ?_⟩ <;>
    exact containsUIOpt_bare (hbare _ (by tauto))

/-- Claim C10: a `UnionInstantiationTransformer` appears in the synthesized
forward transformer if and only if the deduplicated member set has more than
one element; when the union collapses to a single member, every branch of the
`DecodingChoice` is a bare `Decode` with no continuation. -/
theorem union_instantiation_iff (attrs : List String) (ms : List Ty)
    (out : ReplacementOut) (hnd : (ms.map Ty.kind).Nodup)
    (hhk : ∀ t ∈ ms, handledKind t.kind = true)
    (h : replaceUnion attrs ms = .ok out) :
    (containsUI out.transformation.forward = true ↔
      1 < (dedupFirst (memberRefs ms)).length) ∧
    (¬1 < (dedupFirst (memberRefs ms)).length →
      ∀ b ∈ dcBranchList out.transformation.forward,
        b = none ∨ ∃ m, b = some (Transformer.decoding m none)) := by
  constructor
  · constructor
    · intro hc
      by_contra hno
      have hu : haveUnionOf ms = false := by
        simp only [haveUnionOf, decide_eq_false_iff_not]
        exact hno
      rw [not_containsUI_of_not_haveUnion hnd h hu] at hc
      simp at hc
    · intro hgt
      have hu : haveUnionOf ms = true := by
        simp only [haveUnionOf, decide_eq_true_eq]
        exact hgt
      exact containsUI_of_haveUnion hnd hhk h hu
  · intro hno
    have hu : haveUnionOf ms = false := by
      simp only [haveUnionOf, decide_eq_false_iff_not]
      exact hno
    exact bare_branches_of_not_haveUnion hnd h hu

/-- Witness for the UnionInstantiate occurrence claim on the two-member union
`{null, bool}` (a genuine union) applied through the theorem. -/
theorem union_instantiation_iff_witness :
    ((([Ty.prim .nullK [], Ty.prim .boolK []] : List Ty).map Ty.kind).Nodup ∧
      (∀ t ∈ ([Ty.prim .nullK [], Ty.prim .boolK []] : List Ty),
        handledKind t.kind = true) ∧
      replaceUnion [] [Ty.prim .nullK [], Ty.prim .boolK []] =
        .ok (unionOutOrDefault [] [Ty.prim .nullK [], Ty.prim .boolK []])) ∧
    ((containsUI (unionOutOrDefault [] [Ty.prim .nullK [],
          Ty.prim .boolK []]).transformation.forward = true ↔
        1 < (dedupFirst (memberRefs [Ty.prim .nullK [], Ty.prim .boolK []])).length) ∧
      (¬1 < (dedupFirst (memberRefs [Ty.prim .nullK [], Ty.prim .boolK []])).length →
        ∀ b ∈ dcBranchList (unionOutOrDefault [] [Ty.prim .nullK [],
            Ty.prim .boolK []]).transformation.forward,
          b = none ∨ ∃ m, b = some (Transformer.decoding m none))) :=
  ⟨⟨by decide, by decide, by decide⟩,
    union_instantiation_iff [] [Ty.prim .nullK [], Ty.prim .boolK []]
      (unionOutOrDefault [] [Ty.prim .nullK [], Ty.prim .boolK []])
      (by decide) (by decide) (by decide)⟩

theorem rawVal_not_tagged {v : Value} (hv : rawVal v = true) :
    ∀ m w, v ≠ Value.vtagged m w := by
  intro m w he
  subst he
  simp [rawVal] at hv

theorem eval_decoding_raw {s : Ty} {k : Option Transformer} {v : Value}
    (hv : rawVal v = true) : eval (.decoding s k) v = evalChain k v := by
  cases v <;> simp [eval]
  simp [rawVal] at hv

theorem eval_decoding_none_raw {s : Ty} {v : Value} (hv : rawVal v = true) :
    eval (.decoding s none) v = some v := by
  rw [eval_decoding_raw hv]
  simp [evalChain]

theorem evalAlts_some_exists : ∀ {L : List Transformer} {v r : Value},
    evalAlts L v = some r → ∃ a ∈ L, eval a v = some r := by
  intro L
  induction L with
  | nil => intro v r h; simp [evalAlts] at h
  | cons a as ih =>
      intro v r h
      rw [evalAlts] at h
      cases ha : eval a v with
      | none =>
          rw [ha] at h
          obtain ⟨b, hb, hbe⟩ := ih h
          exact ⟨b, by simp [hb], hbe⟩
      | some r' =>
          rw [ha] at h
          simp only [Option.some.injEq] at h
          exact ⟨a, by simp, by rw [ha, h]⟩

theorem evalAlts_all_none : ∀ {L : List Transformer} {v : Value},
    (∀ a ∈ L, eval a v = none) → evalAlts L v = none := by
  intro L
  induction L with
  | nil => intro v _; simp [evalAlts]
  | cons a as ih =>
      intro v h
      rw [evalAlts, h a (by simp)]
      exact ih (fun b hb => h b (by simp [hb]))

theorem evalAlts_uniform : ∀ {L : List Transformer} {v r : Value},
    (∀ a ∈ L, eval a v = none ∨ eval a v = some r) →
    (∃ a ∈ L, eval a v ≠ none) → evalAlts L v = some r := by
  intro L
  induction L with
  | nil => intro v r _ hex; simp at hex
  | cons a as ih =>
      intro v r hall hex
      rw [evalAlts]
      cases ha : eval a v with
      | none =>
          refine ih (fun b hb => hall b (by simp [hb])) ?_
          obtain ⟨b, hb, hbe⟩ := hex
          rcases List.mem_cons.mp hb with he | hm
          · exact absurd ha (he ▸ hbe)
          · exact ⟨b, hm, hbe⟩
      | some r' =>
          rcases hall a (by simp) with h | h
          · rw [ha] at h; cases h
          · rw [ha] at h; exact h

theorem revAlts_mem : ∀ {L : List Transformer} {acc : Option Transformer}
    {a : Transformer}, a ∈ revT.revAlts L acc ↔ ∃ b ∈ L, a = revT b acc := by
  intro L
  induction L with
  | nil => intro acc a; simp [revT.revAlts]
  | cons b bs ih =>
      intro acc a
      rw [revT.revAlts]
      simp only [List.mem_cons, List.mem_cons, ih]
      constructor
      · rintro (h | ⟨c, hc, hce⟩)
        · exact ⟨b, Or.inl rfl, h⟩
        · exact ⟨c, Or.inr hc, hce⟩
      · rintro ⟨c, hc | hc, hce⟩
        · exact Or.inl (hc ▸ hce)
        · exact Or.inr ⟨c, hc, hce⟩

theorem parseIntCanon_toString {s : String} {n : Int}
    (h : parseIntCanon s = some n) : toString n = s := by
  unfold parseIntCanon at h
  cases hp : parseIntCanon.parseIntRaw s with
  | none => rw [hp] at h; cases h
  | some m =>
      rw [hp] at h
      simp only [] at h
      by_cases hm : toString m = s
      · rw [if_pos hm] at h
        simp only [Option.some.injEq] at h
        rw [← h]
        exact hm
      · rw [if_neg hm] at h
        cases h

theorem enum_alts_fwd {k : Option Transformer} : ∀ {cs : List String} {x y : Value},
    evalAlts (cs.map (fun c => Transformer.stringMatch stringTy
      (some (Transformer.stringProducer stringTy k c)) c)) x = some y →
    ∃ c ∈ cs, x = Value.vstr c ∧ evalChain k (Value.vstr c) = some y := by
  intro cs
  induction cs with
  | nil => intro x y h; simp [evalAlts] at h
  | cons c cs ih =>
      intro x y h
      rw [List.map_cons, evalAlts] at h
      cases hx : eval (Transformer.stringMatch stringTy
          (some (Transformer.stringProducer stringTy k c)) c) x with
      | none =>
          rw [hx] at h
          obtain ⟨c', hc', hx', hy'⟩ := ih h
          exact ⟨c', by simp [hc'], hx', hy'⟩
      | some r =>
          rw [hx] at h
          simp only [Option.some.injEq] at h
          subst h
          cases x with
          | vstr s =>
              by_cases hs : s = c
              · subst hs
                simp only [eval, evalChain, if_pos rfl] at hx
                exact ⟨s, by simp, rfl, hx⟩
              · simp only [eval, if_neg hs] at hx
                cases hx
          | vnull => simp [eval] at hx
          | vbool b => simp [eval] at hx
          | vint n => simp [eval] at hx
          | vdouble t => simp [eval] at hx
          | varr l => simp [eval] at hx
          | vobj t => simp [eval] at hx
          | vtagged m w => simp [eval] at hx

theorem revAlts_map_form {α : Type} (f g : α → Transformer) (acc : Option Transformer)
    (h : ∀ a, revT (f a) acc = g a) :
    ∀ l : List α, revT.revAlts (l.map f) acc = l.map g := by
  intro l
  induction l with
  | nil => simp [revT.revAlts]
  | cons a as ih =>
      rw [List.map_cons, List.map_cons, revT.revAlts, h, ih]

theorem revT_enum_case_alt (c : String) (k : Option Transformer) (acc : Option Transformer) :
    revT (Transformer.stringMatch stringTy
        (some (Transformer.stringProducer stringTy k c)) c) acc =
      revT.revChain k
        (Transformer.stringMatch stringTy
          (some (Transformer.stringProducer stringTy acc c)) c) := by
  simp [revT, revT.revChain]

theorem enum_alts_rev : ∀ (cs : List String) (s : String), s ∈ cs →
    evalAlts (cs.map (fun c => Transformer.stringMatch stringTy
      (some (Transformer.stringProducer stringTy
        (some (Transformer.decoding stringTy none)) c)) c))
      (Value.vstr s) = some (Value.vstr s) := by
  intro cs
  induction cs with
  | nil => intro s hs; simp at hs
  | cons c cs ih =>
      intro s hs
      rw [List.map_cons, evalAlts]
      by_cases hsc : s = c
      · subst hsc
        simp [eval, evalChain]
      · have : eval (Transformer.stringMatch stringTy
            (some (Transformer.stringProducer stringTy
              (some (Transformer.decoding stringTy none)) c)) c) (Value.vstr s) = none := by
          simp [eval, hsc]
        rw [this]
        exact ih s (by rcases List.mem_cons.mp hs with h | h; exact absurd h hsc; exact h)

theorem roundTrip_enum (attrs cases : List String) :
    RoundTrip (replaceEnum attrs cases).transformation.forward := by
  intro x y hraw hacc
  have hfwd : (replaceEnum attrs cases).transformation.forward =
      Transformer.decoding stringTy (some (Transformer.choice stringTy
        ((sortCases cases).map (fun c => Transformer.stringMatch stringTy
          (some (Transformer.stringProducer stringTy none c)) c)))) := rfl
  rw [hfwd] at hacc ⊢
  rw [eval_decoding_raw hraw] at hacc
  rw [evalChain, eval] at hacc
  obtain ⟨c, hcmem, hx, hy⟩ := enum_alts_fwd hacc
  rw [evalChain] at hy
  simp only [Option.some.injEq] at hy
  subst hx
  subst hy
  have hrev : revT (Transformer.decoding stringTy (some (Transformer.choice stringTy
      ((sortCases cases).map (fun c => Transformer.stringMatch stringTy
        (some (Transformer.stringProducer stringTy none c)) c))))) none =
      Transformer.choice stringTy ((sortCases cases).map
        (fun c => Transformer.stringMatch stringTy
          (some (Transformer.stringProducer stringTy
            (some (Transformer.decoding stringTy none)) c)) c)) := by
    simp only [revT, revT.revChain]
    rw [revAlts_map_form
      (fun c => Transformer.stringMatch stringTy
        (some (Transformer.stringProducer stringTy none c)) c)
      (fun c => Transformer.stringMatch stringTy
        (some (Transformer.stringProducer stringTy
          (some (Transformer.decoding stringTy none)) c)) c)
      (some (Transformer.decoding stringTy none))
      (fun c => by
        rw [revT_enum_case_alt]
        simp [revT.revChain])]
  rw [hrev, eval]
  exact enum_alts_rev (sortCases cases) c hcmem

theorem roundTrip_integerString (t : Ty) :
    RoundTrip (replaceIntegerString t).transformation.forward := by
  intro x y hraw hacc
  have hfwd : (replaceIntegerString t).transformation.forward =
      Transformer.decoding stringTy (some (Transformer.parseString stringTy none)) := rfl
  rw [hfwd] at hacc ⊢
  rw [eval_decoding_raw hraw] at hacc
  rw [evalChain] at hacc
  cases x with
  | vstr s =>
      simp only [eval] at hacc
      cases hp : parseIntCanon s with
      | none => rw [hp] at hacc; cases hacc
      | some n =>
          rw [hp] at hacc
          simp only [evalChain] at hacc
          simp only [Option.some.injEq] at hacc
          subst hacc
          have hrev : revT (Transformer.decoding stringTy
              (some (Transformer.parseString stringTy none))) none =
              Transformer.stringify stringTy
                (some (Transformer.decoding stringTy none)) := by
            simp [revT, revT.revChain]
          rw [hrev]
          simp only [eval, evalChain, eval_decoding_none_raw (by simp [rawVal] :
            rawVal (Value.vstr (toString n)) = true)]
          rw [parseIntCanon_toString hp]
  | vnull => simp [eval] at hacc
  | vbool b => simp [eval] at hacc
  | vint n => simp [eval] at hacc
  | vdouble d => simp [eval] at hacc
  | varr l => simp [eval] at hacc
  | vobj o => simp [eval] at hacc
  | vtagged m w => simp [rawVal] at hraw

theorem evalItems_id {xs : List Value} (h : rawVal.rawValList xs = true) :
    evalItems (Transformer.decoding anyTy none) xs = some xs := by
  induction xs with
  | nil => simp [evalItems]
  | cons x rest ih =>
      rw [rawVal.rawValList] at h
      simp only [Bool.and_eq_true] at h
      rw [evalItems, eval_decoding_none_raw h.1, ih h.2]

theorem roundTrip_array (attrs : List String) (items : Ty) :
    RoundTrip (replaceArray attrs items).transformation.forward := by
  intro x y hraw hacc
  have hfwd : (replaceArray attrs items).transformation.forward =
      Transformer.arrayDecoding (Ty.arr [] anyTy) none items
        (Transformer.decoding anyTy none) := rfl
  rw [hfwd] at hacc ⊢
  cases x with
  | varr xs =>
      have hxs : rawVal.rawValList xs = true := by
        rw [rawVal] at hraw
        exact hraw
      simp only [eval] at hacc
      rw [evalItems_id hxs] at hacc
      simp only [evalChain] at hacc
      simp only [Option.some.injEq] at hacc
      subst hacc
      have hrev : revT (Transformer.arrayDecoding (Ty.arr [] anyTy) none items
          (Transformer.decoding anyTy none)) none =
          Transformer.arrayDecoding (Ty.arr [] anyTy) none items
            (Transformer.decoding anyTy none) := by
        simp [revT, revT.revChain]
      rw [hrev]
      simp only [eval]
      rw [evalItems_id hxs]
      simp [evalChain]
  | vnull => simp [eval] at hacc
  | vbool b => simp [eval] at hacc
  | vint n => simp [eval] at hacc
  | vdouble d => simp [eval] at hacc
  | vstr s => simp [eval] at hacc
  | vobj o => simp [eval] at hacc
  | vtagged m w => simp [rawVal] at hraw

theorem fwd_simple_branch {ref : Ty} {x y : Value} (hx : rawVal x = true)
    (h : eval (Transformer.decoding ref
      (some (Transformer.unionInstantiation ref))) x = some y) :
    y = Value.vtagged ref x := by
  rw [eval_decoding_raw hx] at h
  simp only [evalChain, eval, Option.some.injEq] at h
  exact h.symm

theorem rev_simple_branch_eval {ref m : Ty} {v : Value} (hv : rawVal v = true) :
    eval (revT (Transformer.decoding ref
        (some (Transformer.unionInstantiation ref))) none) (Value.vtagged m v) =
      if m = ref then some v else none := by
  have hr : revT (Transformer.decoding ref
      (some (Transformer.unionInstantiation ref))) none =
      Transformer.decoding ref (some (Transformer.decoding ref none)) := by
    simp [revT, revT.revChain]
  rw [hr]
  simp only [eval]
  by_cases hm : m = ref
  · rw [if_pos hm, if_pos hm]
    simp only [evalChain]
    exact eval_decoding_none_raw hv
  · rw [if_neg hm, if_neg hm]

theorem fwd_plain_alt {refS : Ty} {x y : Value}
    (h : eval (Transformer.unionInstantiation refS) x = some y) :
    y = Value.vtagged refS x := by
  simp only [eval, Option.some.injEq] at h
  exact h.symm

theorem rev_plain_alt_eval {refS m : Ty} {v : Value} (hv : rawVal v = true) :
    eval (revT (Transformer.unionInstantiation refS)
        (some (Transformer.decoding stringTy none))) (Value.vtagged m v) =
      if m = refS then some v else none := by
  have hr : revT (Transformer.unionInstantiation refS)
      (some (Transformer.decoding stringTy none)) =
      Transformer.decoding refS (some (Transformer.decoding stringTy none)) := by
    simp [revT]
  rw [hr]
  simp only [eval]
  by_cases hm : m = refS
  · rw [if_pos hm, if_pos hm]
    simp only [evalChain]
    exact eval_decoding_none_raw hv
  · rw [if_neg hm, if_neg hm]

theorem fwd_parse_alt {refP : Ty} {x y : Value}
    (h : eval (Transformer.parseString stringTy
      (some (Transformer.unionInstantiation refP))) x = some y) :
    ∃ s n, x = Value.vstr s ∧ parseIntCanon s = some n ∧
      y = Value.vtagged refP (Value.vint n) := by
  cases x with
  | vstr s =>
      simp only [eval] at h
      cases hp : parseIntCanon s with
      | none => rw [hp] at h; cases h
      | some n =>
          rw [hp] at h
          simp only [evalChain, eval, Option.some.injEq] at h
          exact ⟨s, n, rfl, hp, h.symm⟩
  | vnull => simp [eval] at h
  | vbool b => simp [eval] at h
  | vint n => simp [eval] at h
  | vdouble d => simp [eval] at h
  | varr l => simp [eval] at h
  | vobj o => simp [eval] at h
  | vtagged m w => simp [eval] at h

theorem rev_parse_alt_eval {refP m : Ty} {v : Value} :
    eval (revT (Transformer.parseString stringTy
        (some (Transformer.unionInstantiation refP)))
        (some (Transformer.decoding stringTy none))) (Value.vtagged m v) =
      if m = refP then
        (match v with
         | Value.vint n => some (Value.vstr (toString n))
         | _ => none)
      else none := by
  have hr : revT (Transformer.parseString stringTy
      (some (Transformer.unionInstantiation refP)))
      (some (Transformer.decoding stringTy none)) =
      Transformer.decoding refP (some (Transformer.stringify stringTy
        (some (Transformer.decoding stringTy none)))) := by
    simp [revT, revT.revChain]
  rw [hr]
  simp only [eval]
  by_cases hm : m = refP
  · rw [if_pos hm, if_pos hm]
    simp only [evalChain]
    cases v with
    | vint n => simp [eval, evalChain]
    | vnull => simp [eval]
    | vbool b => simp [eval]
    | vdouble d => simp [eval]
    | vstr s => simp [eval]
    | varr l => simp [eval]
    | vobj o => simp [eval]
    | vtagged m2 w => simp [eval]
  · rw [if_neg hm, if_neg hm]

theorem fwd_enum_alt {refE : Ty} {cs : List String} {x y : Value}
    (h : eval (makeEnumTransformer cs stringTy
      (some (Transformer.unionInstantiation refE))) x = some y) :
    ∃ c ∈ sortCases cs, x = Value.vstr c ∧
      y = Value.vtagged refE (Value.vstr c) := by
  simp only [makeEnumTransformer, eval] at h
  obtain ⟨c, hc, hx, hy⟩ := enum_alts_fwd h
  simp only [evalChain, eval, Option.some.injEq] at hy
  exact ⟨c, hc, hx, hy.symm⟩

theorem revT_makeEnum (cs : List String) (refE : Ty) (acc : Option Transformer) :
    revT (makeEnumTransformer cs stringTy
        (some (Transformer.unionInstantiation refE))) acc =
      Transformer.choice stringTy ((sortCases cs).map (fun c =>
        Transformer.decoding refE (some (Transformer.stringMatch stringTy
          (some (Transformer.stringProducer stringTy acc c)) c)))) := by
  simp only [makeEnumTransformer, revT]
  rw [revAlts_map_form
    (fun c => Transformer.stringMatch stringTy
      (some (Transformer.stringProducer stringTy
        (some (Transformer.unionInstantiation refE)) c)) c)
    (fun c => Transformer.decoding refE (some (Transformer.stringMatch stringTy
      (some (Transformer.stringProducer stringTy acc c)) c)))
    acc
    (fun c => by
      rw [revT_enum_case_alt]
      simp [revT.revChain, revT])]

theorem rev_enum_alts_hit : ∀ (cs' : List String) (refE : Ty) (c : String),
    c ∈ cs' →
    evalAlts (cs'.map (fun c' => Transformer.decoding refE
      (some (Transformer.stringMatch stringTy (some (Transformer.stringProducer
        stringTy (some (Transformer.decoding stringTy none)) c')) c'))))
      (Value.vtagged refE (Value.vstr c)) = some (Value.vstr c) := by
  intro cs'
  induction cs' with
  | nil => intro refE c hc; simp at hc
  | cons c' rest ih =>
      intro refE c hc
      rw [List.map_cons, evalAlts]
      by_cases hcc : c = c'
      · subst hcc
        simp [eval, evalChain]
      · have hfail : eval (Transformer.decoding refE
            (some (Transformer.stringMatch stringTy
              (some (Transformer.stringProducer stringTy
                (some (Transformer.decoding stringTy none)) c')) c')))
            (Value.vtagged refE (Value.vstr c)) = none := by
          simp [eval, evalChain, hcc]
        rw [hfail]
        exact ih refE c ((List.mem_cons.mp hc).resolve_left hcc)

theorem rev_enum_alts_miss (cs' : List String) (refE m : Ty) (v : Value)
    (hm : m ≠ refE) :
    evalAlts (cs'.map (fun c' => Transformer.decoding refE
      (some (Transformer.stringMatch stringTy (some (Transformer.stringProducer
        stringTy (some (Transformer.decoding stringTy none)) c')) c'))))
      (Value.vtagged m v) = none := by
  apply evalAlts_all_none
  intro a ha
  obtain ⟨c', _, hc'⟩ := List.mem_map.mp ha
  rw [← hc']
  simp [eval, hm]

theorem rev_enum_alt_eval_hit {refE : Ty} {cs : List String} {c : String}
    (hc : c ∈ sortCases cs) :
    eval (revT (makeEnumTransformer cs stringTy
        (some (Transformer.unionInstantiation refE)))
        (some (Transformer.decoding stringTy none)))
      (Value.vtagged refE (Value.vstr c)) = some (Value.vstr c) := by
  rw [revT_makeEnum]
  simp only [eval]
  exact rev_enum_alts_hit (sortCases cs) refE c hc

theorem rev_enum_alt_eval_miss {refE m : Ty} {cs : List String} {v : Value}
    (hm : m ≠ refE) :
    eval (revT (makeEnumTransformer cs stringTy
        (some (Transformer.unionInstantiation refE)))
        (some (Transformer.decoding stringTy none)))
      (Value.vtagged m v) = none := by
  rw [revT_makeEnum]
  simp only [eval]
  exact rev_enum_alts_miss (sortCases cs) refE m v hm

theorem target_some_iff {k tk : TypeKind} :
    targetTypeKindForTransformedStringTypeKind k = some tk ↔
      (k = .integerStringK ∧ tk = .integerK) := by
  cases k <;> simp [targetTypeKindForTransformedStringTypeKind] <;>
    exact eq_comm

theorem recon_inj {ms : List Ty} (hnd : (ms.map Ty.kind).Nodup)
    (hna : NoAliasing ms) {t1 t2 : Ty} (h1 : t1 ∈ ms) (h2 : t2 ∈ ms)
    (hk : t1.kind ≠ t2.kind) : reconMember ms t1 ≠ reconMember ms t2 := by
  intro he
  have hkk : (reconMember ms t1).kind = (reconMember ms t2).kind := by rw [he]
  rw [kind_reconMember, kind_reconMember] at hkk
  unfold targetOrSelf at hkk
  cases ht1 : targetTypeKindForTransformedStringTypeKind t1.kind with
  | none =>
      cases ht2 : targetTypeKindForTransformedStringTypeKind t2.kind with
      | none => rw [ht1, ht2] at hkk; exact hk hkk
      | some tk2 =>
          rw [ht1, ht2] at hkk
          simp only [] at hkk
          have hfind := hna t2 h2 tk2 ht2
          have hsome : (ms.find? (fun m => m.kind = tk2)).isSome = true := by
            rw [List.find?_isSome]
            exact ⟨t1, h1, by simp [hkk]⟩
          rw [hfind] at hsome
          cases hsome
  | some tk1 =>
      cases ht2 : targetTypeKindForTransformedStringTypeKind t2.kind with
      | none =>
          rw [ht1, ht2] at hkk
          simp only [] at hkk
          have hfind := hna t1 h1 tk1 ht1
          have hsome : (ms.find? (fun m => m.kind = tk1)).isSome = true := by
            rw [List.find?_isSome]
            exact ⟨t2, h2, by simp [hkk]⟩
          rw [hfind] at hsome
          cases hsome
      | some tk2 =>
          have e1 := target_some_iff.mp ht1
          have e2 := target_some_iff.mp ht2
          exact hk (e1.1.trans e2.1.symm)

theorem recon_eq_iff {ms : List Ty} (hnd : (ms.map Ty.kind).Nodup)
    (hna : NoAliasing ms) {m1 m2 : Ty} (h1 : m1 ∈ ms) (h2 : m2 ∈ ms) :
    reconMember ms m1 = reconMember ms m2 ↔ m1 = m2 := by
  constructor
  · intro he
    by_contra hne
    have hk : m1.kind ≠ m2.kind := fun hk => hne (kind_inj_of_nodup hnd h1 h2 hk)
    exact recon_inj hnd hna h1 h2 hk he
  · intro he; rw [he]

theorem mem_revOpt {b : Option Transformer} {acc : Option Transformer}
    {a : Transformer} :
    a ∈ revT.revOpt b acc ↔ ∃ tb, b = some tb ∧ a = revT tb acc := by
  cases b <;> simp [revT.revOpt]

theorem revT_decodingChoice (s : Ty) (b0 b1 b2 b3 b4 b5 b6 : Option Transformer)
    (acc : Option Transformer) :
    revT (.decodingChoice s b0 b1 b2 b3 b4 b5 b6) acc =
      .choice s (revT.revOpt b0 acc ++ (revT.revOpt b1 acc ++ (revT.revOpt b2 acc ++
        (revT.revOpt b3 acc ++ (revT.revOpt b4 acc ++ (revT.revOpt b5 acc ++
          revT.revOpt b6 acc)))))) := by
  simp [revT]

theorem revT_string_multi (alts : List Transformer) :
    revT (.decoding stringTy (some (.choice stringTy alts))) none =
      .choice stringTy (revT.revAlts alts (some (.decoding stringTy none))) := by
  simp [revT, revT.revChain]

theorem stringAltFor_parse {ms : List Ty} {t : Ty}
    (hnd : (ms.map Ty.kind).Nodup) (ht : t ∈ ms)
    (hu : haveUnionOf ms = true) (hk1 : t.kind ≠ .stringK)
    (hk2 : ∀ a cs, t ≠ Ty.enum a cs) :
    stringAltFor ms t =
      Transformer.parseString stringTy
        (some (Transformer.unionInstantiation (reconMember ms t))) := by
  unfold stringAltFor
  unfold transformerForStringType
  rw [memberForKind_self hnd ht, hu]
  simp only []
  cases t with
  | enum a cs => exact absurd rfl (hk2 a cs)
  | prim k a => simp [hk1, consumerFor]
  | arr a i => simp [hk1, consumerFor]
  | union a mems => simp [hk1, consumerFor]

theorem rev_slot_eval {ms : List Ty} {k : TypeKind} {m_p : Ty} {v : Value}
    (hnd : (ms.map Ty.kind).Nodup) (hna : NoAliasing ms)
    (hu : haveUnionOf ms = true) (hmp : m_p ∈ ms) (hv : rawVal v = true) :
    ∀ a ∈ revT.revOpt (transformerForKind ms (haveUnionOf ms) k) none,
      eval a (Value.vtagged (reconMember ms m_p) v) =
        if m_p.kind = k then some v else none := by
  intro a ha
  obtain ⟨tb, htb, hae⟩ := mem_revOpt.mp ha
  rcases transformerForKind_cases ms (haveUnionOf ms) k with hn | ⟨m, hfind, hsome⟩
  · rw [hn] at htb; cases htb
  · rw [hsome] at htb
    simp only [Option.some.injEq] at htb
    subst htb
    subst hae
    have hcf : consumerFor (haveUnionOf ms) (reconMember ms m) =
        some (Transformer.unionInstantiation (reconMember ms m)) := by
      simp [consumerFor, hu]
    rw [hcf, rev_simple_branch_eval hv]
    have hm := mem_of_find hfind
    have hmk := kind_of_find hfind
    by_cases hkk : m_p.kind = k
    · have hmm : m_p = m := kind_inj_of_nodup hnd hmp hm (hkk.trans hmk.symm)
      rw [if_pos hkk, if_pos (show reconMember ms m_p = reconMember ms m by rw [hmm])]
    · have hre : reconMember ms m_p ≠ reconMember ms m :=
        recon_inj hnd hna hmp hm (by rw [hmk]; exact hkk)
      rw [if_neg hre, if_neg hkk]

theorem rev_alt_miss {ms : List Ty} {t m_p : Ty} {v : Value}
    (hnd : (ms.map Ty.kind).Nodup) (hna : NoAliasing ms)
    (hu : haveUnionOf ms = true) (ht : t ∈ stringTypeMembers ms)
    (hmp : m_p ∈ ms) (hne : t ≠ m_p) (hv : rawVal v = true) :
    eval (revT (stringAltFor ms t) (some (Transformer.decoding stringTy none)))
      (Value.vtagged (reconMember ms m_p) v) = none := by
  have htm := mem_of_mem_stringTypeMembers ht
  have hkne : t.kind ≠ m_p.kind := fun hk => hne (kind_inj_of_nodup hnd htm hmp hk)
  have hrne : reconMember ms m_p ≠ reconMember ms t :=
    recon_inj hnd hna hmp htm (fun h => hkne h.symm)
  cases t with
  | prim k a =>
      by_cases hks : k = .stringK
      · rw [stringAltFor_string hnd htm hu (by simp [Ty.kind, hks])]
        rw [rev_plain_alt_eval hv, if_neg hrne]
      · rw [stringAltFor_parse hnd htm hu (by simpa [Ty.kind] using hks)
          (fun b cs h => by cases h)]
        rw [rev_parse_alt_eval, if_neg hrne]
  | enum a cs =>
      rw [stringAltFor_enum hnd htm hu]
      exact rev_enum_alt_eval_miss hrne
  | arr a i =>
      have := stringLike_of_mem_stringTypeMembers ht
      simp [isStringLike, Ty.kind, isPrimitiveStringTypeKind] at this
  | union a mems =>
      have := stringLike_of_mem_stringTypeMembers ht
      simp [isStringLike, Ty.kind, isPrimitiveStringTypeKind] at this

theorem rev_alt_hit {ms : List Ty} {m_p : Ty} {v x : Value}
    (hnd : (ms.map Ty.kind).Nodup) (hu : haveUnionOf ms = true)
    (hmp' : m_p ∈ stringTypeMembers ms) (hx : rawVal x = true)
    (hrel : eval (stringAltFor ms m_p) x =
      some (Value.vtagged (reconMember ms m_p) v)) :
    eval (revT (stringAltFor ms m_p) (some (Transformer.decoding stringTy none)))
      (Value.vtagged (reconMember ms m_p) v) = some x := by
  have hmp := mem_of_mem_stringTypeMembers hmp'
  have hsl := stringLike_of_mem_stringTypeMembers hmp'
  cases m_p with
  | prim k a =>
      by_cases hks : k = .stringK
      · rw [stringAltFor_string hnd hmp hu (by simp [Ty.kind, hks])] at hrel ⊢
        have h2 := fwd_plain_alt hrel
        simp only [Value.vtagged.injEq] at h2
        obtain ⟨-, hvx⟩ := h2
        rw [rev_plain_alt_eval (hvx ▸ hx), if_pos rfl, hvx]
      · rw [stringAltFor_parse hnd hmp hu (by simpa [Ty.kind] using hks)
          (fun b cs h => by cases h)] at hrel ⊢
        obtain ⟨s, n, hxs, hp, hy⟩ := fwd_parse_alt hrel
        simp only [Value.vtagged.injEq] at hy
        obtain ⟨-, hv2⟩ := hy
        rw [rev_parse_alt_eval, if_pos rfl, hv2]
        simp only []
        rw [parseIntCanon_toString hp, hxs]
  | enum a cs =>
      rw [stringAltFor_enum hnd hmp hu] at hrel ⊢
      obtain ⟨c, hc, hxc, hy⟩ := fwd_enum_alt hrel
      simp only [Value.vtagged.injEq] at hy
      obtain ⟨-, hv2⟩ := hy
      rw [hv2, rev_enum_alt_eval_hit hc, hxc]
  | arr a i =>
      simp [isStringLike, Ty.kind, isPrimitiveStringTypeKind] at hsl
  | union a mems =>
      simp [isStringLike, Ty.kind, isPrimitiveStringTypeKind] at hsl

theorem stringAlt_out_shape {ms : List Ty} {t : Ty} {x y : Value}
    (hnd : (ms.map Ty.kind).Nodup) (hu : haveUnionOf ms = true)
    (htm : t ∈ ms) (hsl : isStringLike t = true) (hx : rawVal x = true)
    (h : eval (stringAltFor ms t) x = some y) :
    ∃ v, y = Value.vtagged (reconMember ms t) v ∧ rawVal v = true := by
  cases t with
  | prim k a =>
      by_cases hks : k = .stringK
      · rw [stringAltFor_string hnd htm hu (by simp [Ty.kind, hks])] at h
        exact ⟨x, fwd_plain_alt h, hx⟩
      · rw [stringAltFor_parse hnd htm hu (by simpa [Ty.kind] using hks)
          (fun b cs hh => by cases hh)] at h
        obtain ⟨s, n, hxs, hp, hy⟩ := fwd_parse_alt h
        exact ⟨Value.vint n, hy, rfl⟩
  | enum a cs =>
      rw [stringAltFor_enum hnd htm hu] at h
      obtain ⟨c, hc, hxc, hy⟩ := fwd_enum_alt h
      exact ⟨Value.vstr c, hy, rfl⟩
  | arr a i =>
      simp [isStringLike, Ty.kind, isPrimitiveStringTypeKind] at hsl
  | union a mems =>
      simp [isStringLike, Ty.kind, isPrimitiveStringTypeKind] at hsl

theorem fwd_slot_production {ms : List Ty} {k : TypeKind} {x y : Value}
    (hx : rawVal x = true)
    (h : evalBranch (transformerForKind ms (haveUnionOf ms) k) x = some y) :
    ∃ m, ms.find? (fun t => t.kind = k) = some m ∧
      (haveUnionOf ms = true → y = Value.vtagged (reconMember ms m) x) ∧
      (haveUnionOf ms = false → y = x) := by
  rcases transformerForKind_cases ms (haveUnionOf ms) k with hn | ⟨m, hfind, hsome⟩
  · rw [hn] at h; simp [evalBranch] at h
  · rw [hsome] at h
    simp only [evalBranch] at h
    rw [eval_decoding_raw hx] at h
    refine ⟨m, hfind, ?_, ?_⟩
    · intro hu
      rw [hu] at h
      simp only [consumerFor, if_true, evalChain, eval, Option.some.injEq] at h
      exact h.symm
    · intro hu
      rw [hu] at h
      simp only [consumerFor, Bool.false_eq_true, if_false, evalChain,
        Option.some.injEq] at h
      exact h.symm

theorem fwd_string_production {ms : List Ty} {tS : Option Transformer} {x y : Value}
    (hnd : (ms.map Ty.kind).Nodup) (hu : haveUnionOf ms = true)
    (hts : transformerForString ms (haveUnionOf ms) = .ok tS)
    (hx : rawVal x = true) (h : evalBranch tS x = some y) :
    ∃ m_p, m_p ∈ stringTypeMembers ms ∧ ∃ v,
      y = Value.vtagged (reconMember ms m_p) v ∧ rawVal v = true ∧
      ((stringTypeMembers ms = [m_p] ∧ v = x)
       ∨ (2 ≤ (stringTypeMembers ms).length ∧
          eval (stringAltFor ms m_p) x =
            some (Value.vtagged (reconMember ms m_p) v))) := by
  cases hsm : stringTypeMembers ms with
  | nil =>
      unfold transformerForString at hts
      rw [hsm] at hts
      simp only [Except.ok.injEq] at hts
      rw [← hts] at h
      simp [evalBranch] at h
  | cons t1 ts =>
      cases ts with
      | nil =>
          unfold transformerForString at hts
          rw [hsm] at hts
          simp only [Except.ok.injEq] at hts
          have ht1 : t1 ∈ stringTypeMembers ms := by rw [hsm]; simp
          have ht1m := mem_of_mem_stringTypeMembers ht1
          have htfk := transformerForKind_self hnd ht1m (haveUnionOf ms)
          have hcf : consumerFor (haveUnionOf ms) (reconMember ms t1) =
              some (Transformer.unionInstantiation (reconMember ms t1)) := by
            simp [consumerFor, hu]
          rw [← hts, htfk, hcf] at h
          simp only [evalBranch] at h
          exact ⟨t1, by simp, x, fwd_simple_branch hx h, hx, Or.inl ⟨rfl, rfl⟩⟩
      | cons t2 rest =>
          have h2 := transformerForString_two hnd hsm
          rw [h2.2] at hts
          simp only [Except.ok.injEq] at hts
          rw [← hts] at h
          simp only [evalBranch] at h
          rw [eval_decoding_raw hx] at h
          simp only [evalChain, eval] at h
          obtain ⟨alt, halt, halte⟩ := evalAlts_some_exists h
          obtain ⟨t_p, htp, hate⟩ := List.mem_map.mp halt
          rw [← hate] at halte
          obtain ⟨v, hyv, hvr⟩ := stringAlt_out_shape hnd hu
            (mem_of_mem_stringTypeMembers htp)
            (stringLike_of_mem_stringTypeMembers htp) hx halte
          refine ⟨t_p, hsm ▸ htp, v, hyv, hvr, Or.inr ⟨?_, ?_⟩⟩
          · simp only [List.length_cons]
            omega
          · rw [← hyv]
            exact halte

theorem rev_string_miss {ms : List Ty} {tS : Option Transformer} {m_p : Ty}
    {v : Value} (hnd : (ms.map Ty.kind).Nodup) (hna : NoAliasing ms)
    (hu : haveUnionOf ms = true)
    (hts : transformerForString ms (haveUnionOf ms) = .ok tS)
    (hmp : m_p ∈ ms) (hnsl : isStringLike m_p = false) (hv : rawVal v = true) :
    ∀ a ∈ revT.revOpt tS none,
      eval a (Value.vtagged (reconMember ms m_p) v) = none := by
  intro a ha
  obtain ⟨tb, htb, hae⟩ := mem_revOpt.mp ha
  subst hae
  cases hsm : stringTypeMembers ms with
  | nil =>
      unfold transformerForString at hts
      rw [hsm] at hts
      simp only [Except.ok.injEq] at hts
      rw [← hts] at htb
      cases htb
  | cons t1 ts =>
      cases ts with
      | nil =>
          unfold transformerForString at hts
          rw [hsm] at hts
          simp only [Except.ok.injEq] at hts
          have ht1 : t1 ∈ stringTypeMembers ms := by rw [hsm]; simp
          have ht1m := mem_of_mem_stringTypeMembers ht1
          have htfk := transformerForKind_self hnd ht1m (haveUnionOf ms)
          have hcf : consumerFor (haveUnionOf ms) (reconMember ms t1) =
              some (Transformer.unionInstantiation (reconMember ms t1)) := by
            simp [consumerFor, hu]
          rw [← hts, htfk, hcf] at htb
          simp only [Option.some.injEq] at htb
          subst htb
          have hsl1 := stringLike_of_mem_stringTypeMembers ht1
          have hkne : m_p.kind ≠ t1.kind := by
            intro he
            have hEq : isStringLike m_p = isStringLike t1 := by
              simp [isStringLike, he]
            rw [hEq, hsl1] at hnsl
            cases hnsl
          have hre := recon_inj hnd hna hmp ht1m hkne
          rw [rev_simple_branch_eval hv, if_neg hre]
      | cons t2 rest =>
          have h2 := transformerForString_two hnd hsm
          rw [h2.2] at hts
          simp only [Except.ok.injEq] at hts
          rw [← hts] at htb
          simp only [Option.some.injEq] at htb
          subst htb
          rw [revT_string_multi]
          simp only [eval]
          apply evalAlts_all_none
          intro a2 ha2
          rw [revAlts_mem] at ha2
          obtain ⟨b, hb, hab⟩ := ha2
          obtain ⟨t2', ht2', hbt⟩ := List.mem_map.mp hb
          subst hab
          rw [← hbt]
          have hne : t2' ≠ m_p := by
            intro he
            have hsl2 := stringLike_of_mem_stringTypeMembers ht2'
            rw [← he] at hnsl
            rw [hsl2] at hnsl
            cases hnsl
          exact rev_alt_miss hnd hna hu ht2' hmp hne hv

theorem rev_string_hit {ms : List Ty} {tS : Option Transformer} {m_p : Ty}
    {v x : Value} (hnd : (ms.map Ty.kind).Nodup) (hna : NoAliasing ms)
    (hu : haveUnionOf ms = true)
    (hts : transformerForString ms (haveUnionOf ms) = .ok tS)
    (hmp' : m_p ∈ stringTypeMembers ms) (hv : rawVal v = true)
    (hx : rawVal x = true)
    (hprod : (stringTypeMembers ms = [m_p] ∧ v = x)
      ∨ (2 ≤ (stringTypeMembers ms).length ∧
         eval (stringAltFor ms m_p) x =
           some (Value.vtagged (reconMember ms m_p) v))) :
    ∃ a0, revT.revOpt tS none = [a0] ∧
      eval a0 (Value.vtagged (reconMember ms m_p) v) = some x := by
  have hmp := mem_of_mem_stringTypeMembers hmp'
  cases hsm : stringTypeMembers ms with
  | nil => rw [hsm] at hmp'; simp at hmp'
  | cons t1 ts =>
      cases ts with
      | nil =>
          have hm1 : m_p = t1 := by rw [hsm] at hmp'; simpa using hmp'
          subst hm1
          rcases hprod with ⟨-, hvx⟩ | ⟨hlen, -⟩
          · unfold transformerForString at hts
            rw [hsm] at hts
            simp only [Except.ok.injEq] at hts
            have htfk := transformerForKind_self hnd hmp (haveUnionOf ms)
            have hcf : consumerFor (haveUnionOf ms) (reconMember ms m_p) =
                some (Transformer.unionInstantiation (reconMember ms m_p)) := by
              simp [consumerFor, hu]
            rw [hcf] at htfk
            refine ⟨revT (Transformer.decoding (reconMember ms m_p)
              (some (Transformer.unionInstantiation (reconMember ms m_p)))) none,
              ?_, ?_⟩
            · rw [← hts, htfk]
              simp [revT.revOpt]
            · rw [rev_simple_branch_eval hv, if_pos rfl, hvx]
          · rw [hsm] at hlen
            simp at hlen
      | cons t2 rest =>
          rcases hprod with ⟨hsingle, -⟩ | ⟨-, hrel⟩
          · rw [hsm] at hsingle
            simp at hsingle
          · have h2 := transformerForString_two hnd hsm
            rw [h2.2] at hts
            simp only [Except.ok.injEq] at hts
            refine ⟨revT (Transformer.decoding stringTy (some (Transformer.choice
              stringTy ((stringTypeMembers ms).map (stringAltFor ms))))) none,
              ?_, ?_⟩
            · rw [← hts]
              simp [revT.revOpt]
            · rw [revT_string_multi]
              simp only [eval]
              apply evalAlts_uniform
              · intro a ha
                rw [revAlts_mem] at ha
                obtain ⟨b, hb, hab⟩ := ha
                obtain ⟨t2', ht2', hbt⟩ := List.mem_map.mp hb
                subst hab
                rw [← hbt]
                by_cases htp : t2' = m_p
                · subst htp
                  exact Or.inr (rev_alt_hit hnd hu ht2' hx hrel)
                · exact Or.inl (rev_alt_miss hnd hna hu ht2' hmp htp hv)
              · refine ⟨revT (stringAltFor ms m_p)
                  (some (Transformer.decoding stringTy none)), ?_, ?_⟩
                · rw [revAlts_mem]
                  exact ⟨stringAltFor ms m_p, List.mem_map_of_mem _ hmp', rfl⟩
                · rw [rev_alt_hit hnd hu hmp' hx hrel]
                  simp

theorem rev_big_simple {ms : List Ty} {tS : Option Transformer} {m_p : Ty}
    {x : Value} (hnd : (ms.map Ty.kind).Nodup) (hna : NoAliasing ms)
    (hu : haveUnionOf ms = true)
    (hts : transformerForString ms (haveUnionOf ms) = .ok tS)
    (hcm : ((transformerForKind ms (haveUnionOf ms) .classK).isSome &&
      (transformerForKind ms (haveUnionOf ms) .mapK).isSome) = false)
    (hmp : m_p ∈ ms) (hx : rawVal x = true)
    (hk7 : m_p.kind = .nullK ∨ m_p.kind = .integerK ∨ m_p.kind = .doubleK ∨
      m_p.kind = .boolK ∨ m_p.kind = .arrayK ∨ m_p.kind = .classK ∨
      m_p.kind = .mapK) :
    eval (revT (Transformer.decodingChoice anyTy
        (transformerForKind ms (haveUnionOf ms) .nullK)
        (transformerForKind ms (haveUnionOf ms) .integerK)
        (transformerForKind ms (haveUnionOf ms) .doubleK)
        (transformerForKind ms (haveUnionOf ms) .boolK)
        tS
        (transformerForKind ms (haveUnionOf ms) .arrayK)
        (if (transformerForKind ms (haveUnionOf ms) .classK).isSome = true
         then transformerForKind ms (haveUnionOf ms) .classK
         else transformerForKind ms (haveUnionOf ms) .mapK)) none)
      (Value.vtagged (reconMember ms m_p) x) = some x := by
  have hnsl : isStringLike m_p = false := by
    rcases hk7 with hk | hk | hk | hk | hk | hk | hk <;>
      simp [isStringLike, isPrimitiveStringTypeKind, hk]
  rw [revT_decodingChoice]
  simp only [eval]
  apply evalAlts_uniform
  · intro a ha
    simp only [List.mem_append] at ha
    have hslot : ∀ (k : TypeKind) a2,
        a2 ∈ revT.revOpt (transformerForKind ms (haveUnionOf ms) k) none →
        eval a2 (Value.vtagged (reconMember ms m_p) x) = none ∨
        eval a2 (Value.vtagged (reconMember ms m_p) x) = some x := by
      intro k a2 ha2
      rw [rev_slot_eval hnd hna hu hmp hx a2 ha2]
      by_cases hkk : m_p.kind = k
      · rw [if_pos hkk]
        exact Or.inr rfl
      · rw [if_neg hkk]
        exact Or.inl rfl
    rcases ha with h | h | h | h | h | h | h
    · exact hslot _ _ h
    · exact hslot _ _ h
    · exact hslot _ _ h
    · exact hslot _ _ h
    · exact Or.inl (rev_string_miss hnd hna hu hts hmp hnsl hx _ h)
    · exact hslot _ _ h
    · by_cases hc : (transformerForKind ms (haveUnionOf ms) .classK).isSome = true
      · rw [if_pos hc] at h
        exact hslot _ _ h
      · rw [if_neg hc] at h
        exact hslot _ _ h
  · have htfk := transformerForKind_self hnd hmp (haveUnionOf ms)
    have hcf : consumerFor (haveUnionOf ms) (reconMember ms m_p) =
        some (Transformer.unionInstantiation (reconMember ms m_p)) := by
      simp [consumerFor, hu]
    rw [hcf] at htfk
    refine ⟨revT (Transformer.decoding (reconMember ms m_p)
      (some (Transformer.unionInstantiation (reconMember ms m_p)))) none, ?_, ?_⟩
    · have hmem0 : revT (Transformer.decoding (reconMember ms m_p)
          (some (Transformer.unionInstantiation (reconMember ms m_p)))) none ∈
          revT.revOpt (transformerForKind ms (haveUnionOf ms) m_p.kind) none := by
        rw [htfk]
        simp [revT.revOpt]
      simp only [List.mem_append]
      rcases hk7 with hk | hk | hk | hk | hk | hk | hk
      · rw [hk] at hmem0
        exact Or.inl hmem0
      · rw [hk] at hmem0
        exact Or.inr (Or.inl hmem0)
      · rw [hk] at hmem0
        exact Or.inr (Or.inr (Or.inl hmem0))
      · rw [hk] at hmem0
        exact Or.inr (Or.inr (Or.inr (Or.inl hmem0)))
      · rw [hk] at hmem0
        exact Or.inr (Or.inr (Or.inr (Or.inr (Or.inr (Or.inl hmem0)))))
      · rw [hk] at hmem0
        have hcs : (transformerForKind ms (haveUnionOf ms) .classK).isSome = true := by
          rw [hk] at htfk
          rw [htfk]
          rfl
        rw [if_pos hcs]
        exact Or.inr (Or.inr (Or.inr (Or.inr (Or.inr (Or.inr hmem0)))))
      · rw [hk] at hmem0
        have hms : (transformerForKind ms (haveUnionOf ms) .mapK).isSome = true := by
          rw [hk] at htfk
          rw [htfk]
          rfl
        have hcs : (transformerForKind ms (haveUnionOf ms) .classK).isSome = false := by
          cases hcl : (transformerForKind ms (haveUnionOf ms) .classK).isSome
          · rfl
          · rw [hcl, hms] at hcm
            cases hcm
        rw [hcs]
        simp only [Bool.false_eq_true, if_false]
        exact Or.inr (Or.inr (Or.inr (Or.inr (Or.inr (Or.inr hmem0)))))
    · rw [rev_simple_branch_eval hx, if_pos rfl]
      simp

theorem rev_big_string {ms : List Ty} {tS : Option Transformer} {m_p : Ty}
    {v x : Value} (hnd : (ms.map Ty.kind).Nodup) (hna : NoAliasing ms)
    (hu : haveUnionOf ms = true)
    (hts : transformerForString ms (haveUnionOf ms) = .ok tS)
    (hmp' : m_p ∈ stringTypeMembers ms) (hv : rawVal v = true)
    (hx : rawVal x = true)
    (hprod : (stringTypeMembers ms = [m_p] ∧ v = x)
      ∨ (2 ≤ (stringTypeMembers ms).length ∧
         eval (stringAltFor ms m_p) x =
           some (Value.vtagged (reconMember ms m_p) v))) :
    eval (revT (Transformer.decodingChoice anyTy
        (transformerForKind ms (haveUnionOf ms) .nullK)
        (transformerForKind ms (haveUnionOf ms) .integerK)
        (transformerForKind ms (haveUnionOf ms) .doubleK)
        (transformerForKind ms (haveUnionOf ms) .boolK)
        tS
        (transformerForKind ms (haveUnionOf ms) .arrayK)
        (if (transformerForKind ms (haveUnionOf ms) .classK).isSome = true
         then transformerForKind ms (haveUnionOf ms) .classK
         else transformerForKind ms (haveUnionOf ms) .mapK)) none)
      (Value.vtagged (reconMember ms m_p) v) = some x := by
  have hmp := mem_of_mem_stringTypeMembers hmp'
  have hsl := stringLike_of_mem_stringTypeMembers hmp'
  obtain ⟨a0, ha0eq, ha0ev⟩ := rev_string_hit hnd hna hu hts hmp' hv hx hprod
  rw [revT_decodingChoice]
  simp only [eval]
  apply evalAlts_uniform
  · intro a ha
    simp only [List.mem_append] at ha
    have hslot : ∀ (k : TypeKind), isStringLike (Ty.prim k []) = false → ∀ a2,
        a2 ∈ revT.revOpt (transformerForKind ms (haveUnionOf ms) k) none →
        eval a2 (Value.vtagged (reconMember ms m_p) v) = none := by
      intro k hks a2 ha2
      rw [rev_slot_eval hnd hna hu hmp hv a2 ha2]
      have hkne : m_p.kind ≠ k := by
        intro he
        have hEq : isStringLike m_p = isStringLike (Ty.prim k []) := by
          unfold isStringLike
          rw [he]
          rfl
        rw [hEq, hks] at hsl
        cases hsl
      rw [if_neg hkne]
    have hstr : ∀ a2 ∈ revT.revOpt tS none,
        eval a2 (Value.vtagged (reconMember ms m_p) v) = none ∨
        eval a2 (Value.vtagged (reconMember ms m_p) v) = some x := by
      intro a2 ha2
      rw [ha0eq] at ha2
      simp only [List.mem_singleton] at ha2
      subst ha2
      exact Or.inr ha0ev
    rcases ha with h | h | h | h | h | h | h
    · exact Or.inl (hslot _ (by decide) _ h)
    · exact Or.inl (hslot _ (by decide) _ h)
    · exact Or.inl (hslot _ (by decide) _ h)
    · exact Or.inl (hslot _ (by decide) _ h)
    · exact hstr _ h
    · exact Or.inl (hslot _ (by decide) _ h)
    · by_cases hc : (transformerForKind ms (haveUnionOf ms) .classK).isSome = true
      · rw [if_pos hc] at h
        exact Or.inl (hslot _ (by decide) _ h)
      · rw [if_neg hc] at h
        exact Or.inl (hslot _ (by decide) _ h)
  · refine ⟨a0, ?_, ?_⟩
    · simp only [List.mem_append]
      refine Or.inr (Or.inr (Or.inr (Or.inr (Or.inl ?_))))
      rw [ha0eq]
      simp
    · rw [ha0ev]
      simp

theorem roundTrip_union_nohu {attrs : List String} {ms : List Ty}
    {out : ReplacementOut} (hnd : (ms.map Ty.kind).Nodup)
    (h : replaceUnion attrs ms = .ok out) (hu : haveUnionOf ms = false) :
    RoundTrip out.transformation.forward := by
  have hbare := bare_branches_of_not_haveUnion hnd h hu
  obtain ⟨hlen, tS, m0, rest, hset, hts, hcm, hout⟩ := replaceUnion_ok_inv h
  have hfwd : out.transformation.forward = Transformer.decodingChoice anyTy
      (transformerForKind ms (haveUnionOf ms) .nullK)
      (transformerForKind ms (haveUnionOf ms) .integerK)
      (transformerForKind ms (haveUnionOf ms) .doubleK)
      (transformerForKind ms (haveUnionOf ms) .boolK)
      tS
      (transformerForKind ms (haveUnionOf ms) .arrayK)
      (if (transformerForKind ms (haveUnionOf ms) .classK).isSome = true
       then transformerForKind ms (haveUnionOf ms) .classK
       else transformerForKind ms (haveUnionOf ms) .mapK) := by
    rw [hout]
  rw [hfwd] at hbare
  intro x y hx heval
  rw [hfwd] at heval ⊢
  have hbr : ∀ b ∈ dcBranchList (Transformer.decodingChoice anyTy
      (transformerForKind ms (haveUnionOf ms) .nullK)
      (transformerForKind ms (haveUnionOf ms) .integerK)
      (transformerForKind ms (haveUnionOf ms) .doubleK)
      (transformerForKind ms (haveUnionOf ms) .boolK)
      tS
      (transformerForKind ms (haveUnionOf ms) .arrayK)
      (if (transformerForKind ms (haveUnionOf ms) .classK).isSome = true
       then transformerForKind ms (haveUnionOf ms) .classK
       else transformerForKind ms (haveUnionOf ms) .mapK)),
      evalBranch b x = some y → y = x ∧ ∃ tb, b = some tb := by
    intro b hb hbe
    rcases hbare b hb with hbn | ⟨m, hbm⟩
    · rw [hbn] at hbe
      simp [evalBranch] at hbe
    · rw [hbm] at hbe
      simp only [evalBranch] at hbe
      rw [eval_decoding_none_raw hx] at hbe
      simp only [Option.some.injEq] at hbe
      exact ⟨hbe.symm, Transformer.decoding m none, hbm⟩
  have hprod : y = x ∧ ∃ b ∈ dcBranchList (Transformer.decodingChoice anyTy
      (transformerForKind ms (haveUnionOf ms) .nullK)
      (transformerForKind ms (haveUnionOf ms) .integerK)
      (transformerForKind ms (haveUnionOf ms) .doubleK)
      (transformerForKind ms (haveUnionOf ms) .boolK)
      tS
      (transformerForKind ms (haveUnionOf ms) .arrayK)
      (if (transformerForKind ms (haveUnionOf ms) .classK).isSome = true
       then transformerForKind ms (haveUnionOf ms) .classK
       else transformerForKind ms (haveUnionOf ms) .mapK)),
      ∃ tb, b = some tb := by
    cases x with
    | vtagged m w => simp [eval] at heval
    | vnull =>
        simp only [eval] at heval
        obtain ⟨hyx, tb, htb⟩ := hbr _ (by simp [dcBranchList]) heval
        exact ⟨hyx, _, by simp [dcBranchList], tb, htb⟩
    | vint n =>
        simp only [eval] at heval
        obtain ⟨hyx, tb, htb⟩ := hbr _ (by simp [dcBranchList]) heval
        exact ⟨hyx, _, by simp [dcBranchList], tb, htb⟩
    | vdouble d =>
        simp only [eval] at heval
        obtain ⟨hyx, tb, htb⟩ := hbr _ (by simp [dcBranchList]) heval
        exact ⟨hyx, _, by simp [dcBranchList], tb, htb⟩
    | vbool b =>
        simp only [eval] at heval
        obtain ⟨hyx, tb, htb⟩ := hbr _ (by simp [dcBranchList]) heval
        exact ⟨hyx, _, by simp [dcBranchList], tb, htb⟩
    | vstr s =>
        simp only [eval] at heval
        obtain ⟨hyx, tb, htb⟩ := hbr _ (by simp [dcBranchList]) heval
        exact ⟨hyx, _, by simp [dcBranchList], tb, htb⟩
    | varr xs =>
        simp only [eval] at heval
        obtain ⟨hyx, tb, htb⟩ := hbr _ (by simp [dcBranchList]) heval
        exact ⟨hyx, _, by simp [dcBranchList], tb, htb⟩
    | vobj o =>
        simp only [eval] at heval
        obtain ⟨hyx, tb, htb⟩ := hbr _ (by simp [dcBranchList]) heval
        exact ⟨hyx, _, by simp [dcBranchList], tb, htb⟩
  obtain ⟨hyx, b, hb, tb, htb⟩ := hprod
  subst hyx
  rw [revT_decodingChoice]
  simp only [eval]
  apply evalAlts_uniform
  · intro a ha
    simp only [List.mem_append] at ha
    have hseg : ∀ b2 ∈ dcBranchList (Transformer.decodingChoice anyTy
        (transformerForKind ms (haveUnionOf ms) .nullK)
        (transformerForKind ms (haveUnionOf ms) .integerK)
        (transformerForKind ms (haveUnionOf ms) .doubleK)
        (transformerForKind ms (haveUnionOf ms) .boolK)
        tS
        (transformerForKind ms (haveUnionOf ms) .arrayK)
        (if (transformerForKind ms (haveUnionOf ms) .classK).isSome = true
         then transformerForKind ms (haveUnionOf ms) .classK
         else transformerForKind ms (haveUnionOf ms) .mapK)),
        ∀ a2 ∈ revT.revOpt b2 none, eval a2 y = some y := by
      intro b2 hb2 a2 ha2
      obtain ⟨tb2, htb2, hae2⟩ := mem_revOpt.mp ha2
      rcases hbare b2 hb2 with hbn | ⟨m, hbm⟩
      · rw [hbn] at htb2
        cases htb2
      · rw [hbm] at htb2
        simp only [Option.some.injEq] at htb2
        subst htb2
        subst hae2
        have hrid : revT (Transformer.decoding m none) none =
            Transformer.decoding m none := by
          simp [revT, revT.revChain]
        rw [hrid, eval_decoding_none_raw hx]
    rcases ha with hA | hA | hA | hA | hA | hA | hA
    · exact Or.inr (hseg _ (by simp [dcBranchList]) _ hA)
    · exact Or.inr (hseg _ (by simp [dcBranchList]) _ hA)
    · exact Or.inr (hseg _ (by simp [dcBranchList]) _ hA)
    · exact Or.inr (hseg _ (by simp [dcBranchList]) _ hA)
    · exact Or.inr (hseg _ (by simp [dcBranchList]) _ hA)
    · exact Or.inr (hseg _ (by simp [dcBranchList]) _ hA)
    · exact Or.inr (hseg _ (by simp [dcBranchList]) _ hA)
  · subst htb
    rcases hbare _ hb with hbn | ⟨m, hbm⟩
    · cases hbn
    · simp only [Option.some.injEq] at hbm
      subst hbm
      refine ⟨revT (Transformer.decoding m none) none, ?_, ?_⟩
      · simp only [dcBranchList, List.mem_cons, List.not_mem_nil, or_false] at hb
        simp only [List.mem_append]
        have helem : revT (Transformer.decoding m none) none ∈
            revT.revOpt (some (Transformer.decoding m none)) none := by
          simp [revT.revOpt]
        rcases hb with hB | hB | hB | hB | hB | hB | hB
        · exact Or.inl (hB ▸ helem)
        · exact Or.inr (Or.inl (hB ▸ helem))
        · exact Or.inr (Or.inr (Or.inl (hB ▸ helem)))
        · exact Or.inr (Or.inr (Or.inr (Or.inl (hB ▸ helem))))
        · exact Or.inr (Or.inr (Or.inr (Or.inr (Or.inl (hB ▸ helem)))))
        · exact Or.inr (Or.inr (Or.inr (Or.inr (Or.inr (Or.inl (hB ▸ helem))))))
        · exact Or.inr (Or.inr (Or.inr (Or.inr (Or.inr (Or.inr (hB ▸ helem))))))
      · have hrid : revT (Transformer.decoding m none) none =
            Transformer.decoding m none := by
          simp [revT, revT.revChain]
        rw [hrid, eval_decoding_none_raw hx]
        simp

theorem roundTrip_union_hu {attrs : List String} {ms : List Ty}
    {out : ReplacementOut} (hnd : (ms.map Ty.kind).Nodup) (hna : NoAliasing ms)
    (h : replaceUnion attrs ms = .ok out) (hu : haveUnionOf ms = true) :
    RoundTrip out.transformation.forward := by
  obtain ⟨hlen, tS, m0, rest, hset, hts, hcm, hout⟩ := replaceUnion_ok_inv h
  have hfwd : out.transformation.forward = Transformer.decodingChoice anyTy
      (transformerForKind ms (haveUnionOf ms) .nullK)
      (transformerForKind ms (haveUnionOf ms) .integerK)
      (transformerForKind ms (haveUnionOf ms) .doubleK)
      (transformerForKind ms (haveUnionOf ms) .boolK)
      tS
      (transformerForKind ms (haveUnionOf ms) .arrayK)
      (if (transformerForKind ms (haveUnionOf ms) .classK).isSome = true
       then transformerForKind ms (haveUnionOf ms) .classK
       else transformerForKind ms (haveUnionOf ms) .mapK) := by
    rw [hout]
  intro x y hx heval
  rw [hfwd] at heval ⊢
  cases x with
  | vtagged m w => simp [eval] at heval
  | vnull =>
      simp only [eval] at heval
      obtain ⟨m, hfind, hyu, -⟩ := fwd_slot_production hx heval
      rw [hyu hu]
      exact rev_big_simple hnd hna hu hts hcm (mem_of_find hfind) hx
        (Or.inl (kind_of_find hfind))
  | vint n =>
      simp only [eval] at heval
      obtain ⟨m, hfind, hyu, -⟩ := fwd_slot_production hx heval
      rw [hyu hu]
      exact rev_big_simple hnd hna hu hts hcm (mem_of_find hfind) hx
        (Or.inr (Or.inl (kind_of_find hfind)))
  | vdouble d =>
      simp only [eval] at heval
      obtain ⟨m, hfind, hyu, -⟩ := fwd_slot_production hx heval
      rw [hyu hu]
      exact rev_big_simple hnd hna hu hts hcm (mem_of_find hfind) hx
        (Or.inr (Or.inr (Or.inl (kind_of_find hfind))))
  | vbool b =>
      simp only [eval] at heval
      obtain ⟨m, hfind, hyu, -⟩ := fwd_slot_production hx heval
      rw [hyu hu]
      exact rev_big_simple hnd hna hu hts hcm (mem_of_find hfind) hx
        (Or.inr (Or.inr (Or.inr (Or.inl (kind_of_find hfind)))))
  | varr xs =>
      simp only [eval] at heval
      obtain ⟨m, hfind, hyu, -⟩ := fwd_slot_production hx heval
      rw [hyu hu]
      exact rev_big_simple hnd hna hu hts hcm (mem_of_find hfind) hx
        (Or.inr (Or.inr (Or.inr (Or.inr (Or.inl (kind_of_find hfind))))))
  | vstr s =>
      simp only [eval] at heval
      obtain ⟨m_p, hmp', v, hyv, hvr, hprod⟩ :=
        fwd_string_production hnd hu hts hx heval
      rw [hyv]
      exact rev_big_string hnd hna hu hts hmp' hvr hx hprod
  | vobj o =>
      simp only [eval] at heval
      by_cases hc : (transformerForKind ms (haveUnionOf ms) .classK).isSome = true
      · rw [if_pos hc] at heval
        obtain ⟨m, hfind, hyu, -⟩ := fwd_slot_production hx heval
        rw [hyu hu]
        exact rev_big_simple hnd hna hu hts hcm (mem_of_find hfind) hx
          (Or.inr (Or.inr (Or.inr (Or.inr (Or.inr (Or.inl (kind_of_find hfind)))))))
      · rw [if_neg hc] at heval
        obtain ⟨m, hfind, hyu, -⟩ := fwd_slot_production hx heval
        rw [hyu hu]
        exact rev_big_simple hnd hna hu hts hcm (mem_of_find hfind) hx
          (Or.inr (Or.inr (Or.inr (Or.inr (Or.inr (Or.inr (kind_of_find hfind)))))))

theorem roundTrip_union {attrs : List String} {ms : List Ty}
    {out : ReplacementOut} (hnd : (ms.map Ty.kind).Nodup) (hna : NoAliasing ms)
    (h : replaceUnion attrs ms = .ok out) :
    RoundTrip out.transformation.forward := by
  cases hu : haveUnionOf ms with
  | false => exact roundTrip_union_nohu hnd h hu
  | true => exact roundTrip_union_hu hnd hna h hu

/-- Claim C1 (amended): for every Transformation synthesized by this pass the
structurally reversed transformer inverts the forward transformer on every
raw input the forward transformer accepts — unconditionally for the enum,
integer-string and array strategies, and for the union strategy whenever the
union's member kinds are pairwise distinct and no transformed-string member
aliases an existing member of its target kind.  As stated the claim is false
for `replaceUnion`: with such aliasing (e.g. `{integer, integer-string,
string}`) the forward transformer is not injective, so no reverse can invert
it (see the counterexample). -/
theorem transformation_roundtrip (attrs cases : List String) (items t : Ty)
    (ms : List Ty) (out : ReplacementOut)
    (hnd : (ms.map Ty.kind).Nodup) (hna : NoAliasing ms)
    (h : replaceUnion attrs ms = .ok out) :
    RoundTrip (replaceEnum attrs cases).transformation.forward ∧
    RoundTrip (replaceIntegerString t).transformation.forward ∧
    RoundTrip (replaceArray attrs items).transformation.forward ∧
    RoundTrip out.transformation.forward :=
  ⟨roundTrip_enum attrs cases, roundTrip_integerString t,
   roundTrip_array attrs items, roundTrip_union hnd hna h⟩

/-- Counterexample to claim C1 as stated: in the union
`{integer, integer-as-string, string}` the integer-string member is redirected
onto the integer member, so the forward transformer sends the raw string
"42" and the raw integer 42 to the same tagged value; the reversed
transformer sends that value back to the integer 42, not to the original
string "42". -/
theorem transformation_roundtrip_counterexample :
    rawVal (Value.vstr "42") = true ∧
    eval (unionFwd [] [Ty.prim .integerK [], Ty.prim .integerStringK [],
        Ty.prim .stringK []]) (Value.vstr "42") =
      some (Value.vtagged (Ty.prim .integerK []) (Value.vint 42)) ∧
    eval (revT (unionFwd [] [Ty.prim .integerK [], Ty.prim .integerStringK [],
        Ty.prim .stringK []]) none)
      (Value.vtagged (Ty.prim .integerK []) (Value.vint 42)) =
      some (Value.vint 42) ∧
    Value.vint 42 ≠ Value.vstr "42" := by
  refine ⟨rfl, ?_, ?_, by decide⟩
  · simp [unionFwd, replaceUnion, eval, evalChain, evalBranch, evalAlts, evalItems,
      Except.map, transformerForString, transformerForKind, transformerForStringType,
      stringTypeMembers, memberRefs, memberForKind, reconByKind, reconMember,
      dedupFirst, dedupFirstAux, additionalAttrs, definedAll, consumerFor,
      isStringLike, isPrimitiveStringTypeKind,
      targetTypeKindForTransformedStringTypeKind, Ty.kind, anyTy, stringTy,
      parseIntCanon, parseIntCanon.parseIntRaw, parseIntCanon.natOfDigits,
      parseIntCanon.digitVal]
    decide
  · simp [unionFwd, replaceUnion, eval, evalChain, evalBranch, evalAlts, evalItems,
      Except.map, transformerForString, transformerForKind, transformerForStringType,
      stringTypeMembers, memberRefs, memberForKind, reconByKind, reconMember,
      dedupFirst, dedupFirstAux, additionalAttrs, definedAll, consumerFor,
      isStringLike, isPrimitiveStringTypeKind,
      targetTypeKindForTransformedStringTypeKind, Ty.kind, anyTy, stringTy,
      revT, revT.revChain, revT.revAlts, revT.revOpt]

/-- Witness for the amended round-trip claim: enum `{A}`, integer-string,
array and the aliasing-free union `{integer, string}`. -/
theorem transformation_roundtrip_witness :
    ((([Ty.prim .integerK [], Ty.prim .stringK []] : List Ty).map Ty.kind).Nodup ∧
      NoAliasing [Ty.prim .integerK [], Ty.prim .stringK []] ∧
      replaceUnion [] [Ty.prim .integerK [], Ty.prim .stringK []] =
        .ok (unionOutOrDefault [] [Ty.prim .integerK [], Ty.prim .stringK []])) ∧
    (RoundTrip (replaceEnum [] ["A"]).transformation.forward ∧
     RoundTrip (replaceIntegerString (Ty.prim .integerStringK [])).transformation.forward ∧
     RoundTrip (replaceArray [] (Ty.prim .boolK [])).transformation.forward ∧
     RoundTrip (unionOutOrDefault []
       [Ty.prim .integerK [], Ty.prim .stringK []]).transformation.forward) :=
  ⟨⟨by decide, by unfold NoAliasing; decide, by decide⟩,
   transformation_roundtrip [] ["A"] (Ty.prim .boolK []) (Ty.prim .integerStringK [])
     [Ty.prim .integerK [], Ty.prim .stringK []]
     (unionOutOrDefault [] [Ty.prim .integerK [], Ty.prim .stringK []])
     (by decide) (by unfold NoAliasing; decide) (by decide)⟩
